import Mathlib

set_option linter.unusedVariables false

namespace Surrealix

/-- Model of `surrealdb::sql::Permissions`.  The core treats permissions as an
opaque token: it only ever constructs `Permissions::full()`, `Permissions::none()`
and `Permissions::default()` and copies values around, never inspecting them.
We model the type as an enumeration with an extra `custom` constructor so that
distinct opaque values exist. -/
inductive Permissions where
  | full
  | none'
  | dflt
  | custom (n : Nat)
deriving DecidableEq

/-! ### Executable string primitives

Lean's built-in `String.toLower`, `String.splitOn`, `String.startsWith` and
`String.lt` do not reduce definitionally, so the model uses equivalents
defined over the underlying character lists.  `sLower` models Rust's
`to_lowercase` for the ASCII range (all identifiers in play are ASCII). -/

/-- Lexicographic strict order on character lists. -/
def charListLt : List Char → List Char → Bool
  | [], [] => false
  | [], _ :: _ => true
  | _ :: _, [] => false
  | a :: as, b :: bs => a < b || (a == b && charListLt as bs)

/-- Strict order on strings (used only to keep the canonical field maps
sorted; any fixed total order represents the unordered `HashMap`). -/
def sLt (a b : String) : Bool := charListLt a.data b.data

/-- ASCII lower-casing, modelling Rust's `to_lowercase` on identifiers. -/
def sLower (s : String) : String :=
  .mk (s.data.map fun c =>
    if 65 <= c.toNat && c.toNat <= 90 then Char.ofNat (c.toNat + 32) else c)

/-- Is `p` a prefix of `s`? -/
def isPrefList : List Char → List Char → Bool
  | [], _ => true
  | _ :: _, [] => false
  | a :: as, b :: bs => a == b && isPrefList as bs

/-- Worker for `sSplitOn`, fuelled by the input length. -/
def splitSepGo (sep : List Char) : Nat → List Char → List Char → List (List Char)
  | _, [], acc => [acc.reverse]
  | 0, s, acc => [acc.reverse ++ s]
  | fuel + 1, c :: rest, acc =>
    if isPrefList sep (c :: rest) then
      acc.reverse :: splitSepGo sep fuel ((c :: rest).drop sep.length) []
    else
      splitSepGo sep fuel rest (c :: acc)

/-- `String::split` / `String.splitOn` on a non-empty separator. -/
def sSplitOn (s sep : String) : List String :=
  (splitSepGo sep.data s.data.length s.data []).map String.mk

/-- `String::starts_with`. -/
def sStartsWith (s pre : String) : Bool := isPrefList pre.data s.data

/-- `join`/`intercalate` with a separator. -/
def sIntercalate (sep : String) : List String → String
  | [] => ""
  | [x] => x
  | x :: y :: rest => x ++ sep ++ sIntercalate sep (y :: rest)

/-- `ScalarType` from `src/surrealix-core/src/ast/mod.rs`. -/
inductive ScalarType where
  | string | integer | number | float | boolean | point | geometry | set
  | datetime | duration | bytes | uuid | any | null
deriving DecidableEq

/-- `FieldMetadata` from `src/surrealix-core/src/ast/mod.rs`. -/
structure FieldMetadata where
  original_name : String
  original_path : List String
  permissions : Permissions
deriving DecidableEq

/-- `TypeAST` from `src/surrealix-core/src/ast/mod.rs`.

`Object(ObjectType)` holds a `HashMap<String, FieldInfo>`; we model the map as an
association list kept strictly sorted by key (see `insertField`), which is a
canonical representative of the hash map: structural equality of the model
coincides with `HashMap` equality of the original.  A `FieldInfo { ast, meta }`
is modelled as the pair `TypeAST × FieldMetadata`.
`Array(Box<(TypeAST, Option<NonZeroU64>)>)` is modelled with `Option Nat` for the
length. -/
inductive TypeAST where
  | scalar (s : ScalarType)
  | object (fields : List (String × TypeAST × FieldMetadata))
  | array (elem : TypeAST) (len : Option Nat)
  | option' (inner : TypeAST)
  | record (table : String)
  | union (variants : List TypeAST)

/-- Lookup in an object's field map (`HashMap::get`). -/
def getField : List (String × TypeAST × FieldMetadata) → String → Option (TypeAST × FieldMetadata)
  | [], _ => none
  | (k, a, m) :: rest, key => if k = key then some (a, m) else getField rest key

/-- Insertion into an object's field map (`HashMap::insert`): the canonical
sorted-association-list insert.  Replaces the value when the key is present. -/
def insertField : List (String × TypeAST × FieldMetadata) → String →
    TypeAST × FieldMetadata → List (String × TypeAST × FieldMetadata)
  | [], key, v => [(key, v.1, v.2)]
  | (k, a, m) :: rest, key, v =>
    if sLt key k then (key, v.1, v.2) :: (k, a, m) :: rest
    else if key = k then (key, v.1, v.2) :: rest
    else (k, a, m) :: insertField rest key v

/-- Direction of a graph edge (`surrealdb::sql::Dir`).  `both` stands for the
remaining directions, which the analyzer rejects. -/
inductive Dir where
  | inD
  | outD
  | both
deriving DecidableEq

/-- Model of `surrealdb::sql::Part`, restricted to the constructors the
analyzer distinguishes: `Part::Field(ident)`, `Part::All`, `Part::Graph` (of
which the analyzer reads the direction and the first referenced table), and a
stand-in `other` for every remaining `Part` constructor (all of which hit
catch-all error arms). -/
inductive Part where
  | field (ident : String)
  | all
  | graph (dir : Dir) (edge : String)
  | other
deriving DecidableEq

/-- Display rendering of a `Part` (`Display for Part` lives in the external
`surrealdb` crate, approximated here).  It is only ever stored inside
`FieldMetadata.original_path` / error payloads; no analyzed type depends on it. -/
def partToString : Part → String
  | .field ident => "." ++ ident
  | .all => "[*]"
  | .graph d e =>
    (match d with
     | .outD => "->"
     | .inD => "<-"
     | .both => "<->") ++ e
  | .other => "?"

/-- Model of `surrealdb::sql::Kind`, restricted to the constructors handled by
`impl From<Kind> for TypeAST` / `impl From<Kind> for ScalarType`
(`src/surrealix-core/src/ast/mod.rs`); the remaining constructors fall into a
`panic!` arm there and never occur in the analyzed schemas.  `record` carries a
non-empty table list (`rec.first().unwrap()`), `array`/`set` carry the declared
length directly as `Option Nat`. -/
inductive Kind where
  | any | null | bool | bytes | datetime | decimal | duration | float
  | int | number | string | uuid | point
  | geometry (gs : List String)
  | object
  | record (table : String) (restTables : List String)
  | option (inner : Kind)
  | array (inner : Kind) (len : Option Nat)
  | set (inner : Kind) (len : Option Nat)
  | either (variants : List Kind)

/-- `impl From<Kind> for ScalarType` (`src/surrealix-core/src/ast/mod.rs`).
Only invoked on the kinds left over by `kindToTypeAST`, where it is total. -/
def kindToScalarType : Kind → ScalarType
  | .any => .any
  | .null => .null
  | .bool => .boolean
  | .bytes => .bytes
  | .datetime => .datetime
  | .decimal => .number
  | .duration => .duration
  | .float => .float
  | .int => .integer
  | .number => .number
  | .string => .string
  | .uuid => .uuid
  | .point => .point
  | .geometry _ => .geometry
  | _ => .any

mutual

/-- `impl From<Kind> for TypeAST` (`src/surrealix-core/src/ast/mod.rs`). -/
def kindToTypeAST : Kind → TypeAST
  | .object => .object []
  | .record t _ => .record t
  | .option inner => .option' (kindToTypeAST inner)
  | .array inner len => .array (kindToTypeAST inner) len
  | .set inner len => .array (kindToTypeAST inner) len
  | .either ks => .union (kindListToTypeAST ks)
  | k => .scalar (kindToScalarType k)

def kindListToTypeAST : List Kind → List TypeAST
  | [] => []
  | k :: rest => kindToTypeAST k :: kindListToTypeAST rest

end

/-- `DefineTableStatement`: the two components the schema compiler reads. -/
structure DefineTableStatement where
  name : String
  permissions : Permissions

/-- `DefineFieldStatement`: the components the schema compiler reads
(`what` = owning table, `name` = the field path, `kind`, `permissions`). -/
structure DefineFieldStatement where
  what : String
  name : List Part
  kind : Option Kind
  permissions : Permissions

/-- `surrealdb::sql::statements::DefineStatement`, with the constructors the
schema compiler treats as no-ops (`Event`, `Index`, `User`, `Model`,
`Namespace`, `Database`, `Function`, `Analyzer`, `Token`, `Scope`) collapsed
into `otherDefine`; `param` is also a no-op (`apply_param_definition`). -/
inductive DefineStatement where
  | table (d : DefineTableStatement)
  | field (d : DefineFieldStatement)
  | param
  | otherDefine

/-- `surrealdb::sql::Statement`: define statements versus everything else
(which `analyze_schema` skips). -/
inductive Statement where
  | define (d : DefineStatement)
  | other

/-- `SchemaParseError` from `src/surrealix-core/src/schema.rs`. -/
inductive SchemaParseError where
  | invalidSyntax (s : String)
  | nonExistentTableReference (s : String)
  | missingParentObject (s : String)
  | nonArrayStarSelector (s : String)
  | unknown (s : String)
deriving DecidableEq

/-- `apply_table_definition` (`src/surrealix-core/src/schema.rs`). -/
def apply_table_definition (td : DefineTableStatement) (ast : TypeAST) :
    Except SchemaParseError TypeAST :=
  match ast with
  | .object schemaFields =>
    .ok (.object (insertField schemaFields td.name
      (.object [], ⟨td.name, [td.name], td.permissions⟩)))
  | _ => .error (.unknown "Root AST is not an object")

/-- `apply_param_definition` (`src/surrealix-core/src/schema.rs`): a no-op. -/
def apply_param_definition (ast : TypeAST) : Except SchemaParseError TypeAST :=
  .ok ast

/-- `apply_definition` (`src/surrealix-core/src/schema.rs`). -/
def apply_definition (d : DefineStatement) (ast : TypeAST) :
    Except SchemaParseError TypeAST :=
  match d with
  | .table td => apply_table_definition td ast
  | .param => apply_param_definition ast
  | .otherDefine => .ok ast
  | .field _ => .error (.unknown "Received field definition in invalid location!")

/-- The `field_type` computed in `apply_field_definition`:
`field_def.kind.map(TypeAST::from).unwrap_or(Scalar(Any))`. -/
def fieldType (fd : DefineFieldStatement) : TypeAST :=
  match fd.kind with
  | some k => kindToTypeAST k
  | none => .scalar .any

/-- The `matches!(k, Kind::Array(_, _))` test in `apply_field_definition`. -/
def isArrayKind (fd : DefineFieldStatement) : Bool :=
  match fd.kind with
  | some (.array _ _) => true
  | _ => false

/-- The type inserted for a terminal field segment in `apply_field_definition`:
array-kind declarations are flattened to `Array(Scalar(Any), None)` (the
element stays untyped until a wildcard declaration), all others get
`field_type`. -/
def newFieldAst (fd : DefineFieldStatement) : TypeAST :=
  if isArrayKind fd then .array (.scalar .any) none else fieldType fd

/-- The path walk of `apply_field_definition` (`src/surrealix-core/src/schema.rs`
lines 119–202), translated to state passing: the `&mut FieldInfo` cursor `curr`
becomes the entry argument, returned updated.  `path` accumulates
`current_path` (table name first).  An empty part list is an error here: the
original would panic at `parts.last().unwrap()` (the parser never produces it). -/
def applyFieldParts (fd : DefineFieldStatement) (path : List String) :
    List Part → TypeAST × FieldMetadata →
    Except SchemaParseError (TypeAST × FieldMetadata)
  | [], _ => .error (.unknown "empty field path")
  | [p], (ast, meta) =>
    match p with
    | .all =>
      match ast with
      | .array _ len => .ok (.array (fieldType fd) len, meta)
      | _ => .error (.nonArrayStarSelector
          (sIntercalate "." (fd.name.map partToString)))
    | .field ident =>
      match ast with
      | .object obj =>
        .ok (.object (insertField obj ident
          (newFieldAst fd, ⟨ident, path ++ [ident], fd.permissions⟩)), meta)
      | _ => .ok (ast, meta)
    | _ => .error (.unknown "Unexpected last part in field definition")
  | p :: q :: rest, (ast, meta) =>
    match p with
    | .field ident =>
      match ast with
      | .object obj =>
        let child := (getField obj ident).getD
          (.object [], ⟨ident, path ++ [ident], fd.permissions⟩)
        do
          let childUpd ← applyFieldParts fd (path ++ [ident]) (q :: rest) child
          .ok (.object (insertField obj ident childUpd), meta)
      | _ => .error (.missingParentObject ident)
    | _ => .error (.unknown "Unexpected part type in field path")

/-- `apply_field_definition` (`src/surrealix-core/src/schema.rs`). -/
def apply_field_definition (fd : DefineFieldStatement) (ast : TypeAST) :
    Except SchemaParseError TypeAST :=
  match ast with
  | .object schemaFields =>
    let tableName := sLower fd.what
    match getField schemaFields tableName with
    | none => .error (.nonExistentTableReference fd.what)
    | some entry => do
      let entryUpd ← applyFieldParts fd [tableName] fd.name entry
      .ok (.object (insertField schemaFields tableName entryUpd))
  | _ => .error (.unknown "Root AST is not an object")

/-- The partition-and-apply loop of `analyze_schema`: field definitions are
deferred (in order), every other define statement is applied on the spot. -/
def partitionApply : List Statement → TypeAST →
    Except SchemaParseError (List DefineFieldStatement × TypeAST)
  | [], ast => .ok ([], ast)
  | stmt :: rest, ast =>
    match stmt with
    | .define (.field fd) => do
      let (fds, a) ← partitionApply rest ast
      .ok (fd :: fds, a)
    | .define d => do
      let a ← apply_definition d ast
      partitionApply rest a
    | .other => partitionApply rest ast

/-- The comparator of the `sort_by` call in `analyze_schema`: path depth
ascending (`a.name.0.len().cmp(&b.name.0.len())`). -/
def fieldDepthLE (a b : DefineFieldStatement) : Prop :=
  a.name.length ≤ b.name.length

instance : DecidableRel fieldDepthLE := fun a b => Nat.decLe a.name.length b.name.length

/-- `analyze_schema` (`src/surrealix-core/src/schema.rs`): apply table (and
other) definitions in order, then apply the deferred field definitions sorted
stably by path depth ascending.  Rust's `sort_by` is a stable sort, and a
stable sort's output is uniquely determined by the comparator, so the stable
`List.insertionSort` represents it exactly. -/
def analyze_schema (stmts : List Statement) : Except SchemaParseError TypeAST := do
  let (fds, ast) ← partitionApply stmts (.object [])
  (List.insertionSort fieldDepthLE fds).foldlM (fun a fd => apply_field_definition fd a) ast

/-- `AstError` from `src/surrealix-core/src/ast/mod.rs`. -/
inductive AstError where
  | unknownField (s : String)
  | invalidFieldType
  | unsupportedOperation (s : String)
deriving DecidableEq

/-- `TypeAST::resolve_idiom` (`src/surrealix-core/src/ast/mod.rs`): descend
through object fields and (under a final-position-independent `Part::All`)
array elements; every other combination is `InvalidFieldType`. -/
def resolve_idiom (t : TypeAST) : List Part → Except AstError TypeAST
  | [] => .ok t
  | part :: rest =>
    match t, part with
    | .object obj, .field ident =>
      match getField obj ident with
      | some (a, _) => resolve_idiom a rest
      | none => .error (.unknownField ident)
    | .array elem _, .all => resolve_idiom elem rest
    | _, _ => .error .invalidFieldType

mutual

/-- `TypeAST::replace_record_links` (`src/surrealix-core/src/ast/mod.rs`),
translated from in-place mutation to a returned tree.  Note the catch-all
`_ => {}` of the original: `Scalar` and — significantly — `Option` children are
left untouched, and a non-`Object` schema leaves a `Record` unchanged. -/
def replace_record_links (schema : TypeAST) : TypeAST → Except AstError TypeAST
  | .scalar s => .ok (.scalar s)
  | .object fs => do .ok (.object (← replaceRecordLinksFields schema fs))
  | .array elem len => do .ok (.array (← replace_record_links schema elem) len)
  | .option' inner => .ok (.option' inner)
  | .record tableName =>
    match schema with
    | .object schemaObj =>
      match getField schemaObj tableName with
      | some (a, _) => .ok a
      | none => .error (.unknownField tableName)
    | _ => .ok (.record tableName)
  | .union vs => do .ok (.union (← replaceRecordLinksList schema vs))

def replaceRecordLinksFields (schema : TypeAST) :
    List (String × TypeAST × FieldMetadata) →
    Except AstError (List (String × TypeAST × FieldMetadata))
  | [] => .ok []
  | (n, a, m) :: rest => do
    .ok ((n, ← replace_record_links schema a, m) :: (← replaceRecordLinksFields schema rest))

def replaceRecordLinksList (schema : TypeAST) : List TypeAST → Except AstError (List TypeAST)
  | [] => .ok []
  | a :: rest => do
    .ok ((← replace_record_links schema a) :: (← replaceRecordLinksList schema rest))

end

/-- `AnalyzeSelectError` from `src/surrealix-core/src/analyzer/select.rs`.
`astError` is the `#[from] AstError` conversion. -/
inductive AnalyzeSelectError where
  | invalidSchema
  | unknownField (s : String)
  | invalidFieldType
  | unsupportedOperation (s : String)
  | astError (e : AstError)
deriving DecidableEq

/-- Model of `surrealdb::sql::Value`, restricted to what the select analyzer
distinguishes: `Value::Table`, `Value::Idiom`, and a stand-in for everything
else (which hits the unsupported-operation arms). -/
inductive Value where
  | table (name : String)
  | idiom (parts : List Part)
  | otherValue
deriving DecidableEq

/-- `surrealdb::sql::Field`: `All` or `Single { expr, alias }`.  The alias is
only ever rendered with `to_string()`, so it is modelled as the rendered
string. -/
inductive SelectField where
  | all
  | single (expr : Value) (aliasName : Option String)
deriving DecidableEq

/-- The components of `surrealdb::sql::statements::SelectStatement` read by
`analyze_select`: `expr.0` (projection items), `expr.1` (the VALUE flag),
`omits` (the OMIT list), `what`, `fetch` (each fetch item is its idiom's part list), `only`. -/
structure SelectStatement where
  exprFields : List SelectField
  exprValue : Bool
  omits : Option (List (List Part))
  what : List Value
  fetch : Option (List (List Part))
  only : Bool

/-- `analyze_from` (`src/surrealix-core/src/analyzer/select.rs`). -/
def analyze_from (schemaFields : List (String × TypeAST × FieldMetadata))
    (what : List Value) : Except AnalyzeSelectError TypeAST :=
  match what.head? with
  | some (.table t) =>
    match getField schemaFields (sLower t) with
    | some (a, _) => .ok a
    | none => .error (.unknownField t)
  | _ => .error (.unsupportedOperation "Unsupported FROM clause")

/-- `is_field_omitted` (`src/surrealix-core/src/analyzer/select.rs`): a field
name is omitted iff some OMIT idiom's FIRST part is `Part::Field` with that
name; all later parts of the idiom are ignored. -/
def is_field_omitted (fieldName : String) (omits : Option (List (List Part))) : Bool :=
  match omits with
  | none => false
  | some idioms =>
    idioms.any fun idiom =>
      match idiom.head? with
      | some (.field ident) => ident == fieldName
      | _ => false

/-- The shared success path of `find_relation_field`: a found field must be a
`Record`, whose `meta.original_name` and target table are returned. -/
def relationFieldResult (a : TypeAST) (m : FieldMetadata) :
    Except AnalyzeSelectError (String × String) :=
  match a with
  | .record target => .ok (m.original_name, target)
  | _ => .error .invalidFieldType

/-- The primary/fallback lookup of `find_relation_field`. -/
def findRelationLookup (edgeFields : List (String × TypeAST × FieldMetadata))
    (primary fallback : String) : Except AnalyzeSelectError (String × String) :=
  match getField edgeFields primary, getField edgeFields fallback with
  | some (a, m), _ => relationFieldResult a m
  | none, some (a, m) => relationFieldResult a m
  | none, none => .error (.unknownField
      ("Neither " ++ primary ++ " nor " ++ fallback ++ " field found in edge object"))

/-- `find_relation_field` (`src/surrealix-core/src/analyzer/select.rs`):
if the edge object has an `id` field the result is the hardcoded
`("id", "user")`, before the direction is even examined; otherwise `->` follows
`out` (falling back to `in`) and `<-` follows `in` (falling back to `out`). -/
def find_relation_field (edgeFields : List (String × TypeAST × FieldMetadata))
    (dir : Dir) : Except AnalyzeSelectError (String × String) :=
  if (getField edgeFields "id").isSome then .ok ("id", "user")
  else
    match dir with
    | .outD => findRelationLookup edgeFields "out" "in"
    | .inD => findRelationLookup edgeFields "in" "out"
    | .both => .error (.unsupportedOperation "Unsupported graph direction")

/-- The loop of `resolve_graph_traversal`
(`src/surrealix-core/src/analyzer/select.rs` lines 216–346), translated to
recursion over the remaining idiom parts.  `current` is the `current_type`
cursor, `tpath` the accumulated `traversal_path`.  When the parts are
exhausted, a multi-hop path (more than one traversal entry) is wrapped in an
`Array`; a final `Part::All` returns immediately, wrapped in an `Array`. -/
def resolveGraphParts (schema : TypeAST) :
    TypeAST → List String → List Part → Except AnalyzeSelectError (String × TypeAST)
  | current, tpath, [] =>
    .ok (sIntercalate "->" tpath,
      if tpath.length > 1 then .array current none else current)
  | current, tpath, part :: rest =>
    match part with
    | .field ident =>
      match current with
      | .object obj =>
        match getField obj ident with
        | some (a, _) => resolveGraphParts schema a (tpath ++ [ident]) rest
        | none => .error (.unknownField ident)
      | .array elem _ => resolveGraphParts schema elem (tpath ++ [ident]) rest
      | .record recordType =>
        match schema with
        | .object schemaObj =>
          match getField schemaObj recordType with
          | some (ra, _) =>
            match ra with
            | .object recordObj =>
              match getField recordObj ident with
              | some (fa, _) => resolveGraphParts schema fa (tpath ++ [ident]) rest
              | none => .error (.unknownField ident)
            | _ => .error .invalidFieldType
          | none => .error (.unknownField recordType)
        | _ => .error .invalidSchema
      | _ => .error .invalidFieldType
    | .graph dir edge =>
      match dir with
      | .both => .error (.unsupportedOperation "Unsupported graph direction")
      | _ =>
        let fname := (match dir with | .outD => "->" ++ edge | _ => "<-" ++ edge)
        let tpath1 := tpath ++ [fname]
        match schema with
        | .object schemaObj =>
          match getField schemaObj edge with
          | some (ea, _) =>
            match ea with
            | .object edgeObj => do
              let rel ← find_relation_field edgeObj dir
              match getField schemaObj rel.2 with
              | some (ta, _) =>
                let tpath2 := if rel.1 ≠ "id" then tpath1 ++ [rel.1] else tpath1
                resolveGraphParts schema ta (tpath2 ++ [rel.2]) rest
              | none => .error (.unknownField rel.2)
            | _ => .error .invalidFieldType
          | none => .error (.unknownField edge)
        | _ => .error .invalidSchema
    | .all =>
      match rest with
      | [] => .ok (sIntercalate "->" (tpath ++ ["*"]), .array current none)
      | _ => .error (.unsupportedOperation "Unsupported graph traversal part")
    | .other => .error (.unsupportedOperation "Unsupported graph traversal part")

/-- `resolve_graph_traversal` (`src/surrealix-core/src/analyzer/select.rs`). -/
def resolve_graph_traversal (schema baseType : TypeAST) (parts : List Part) :
    Except AnalyzeSelectError (String × TypeAST) :=
  resolveGraphParts schema baseType [] parts

/-- The result-name derivation for a single projection item in
`apply_field_selection`: the alias if given, otherwise the last `->`-segment
of a graph-path name, otherwise the canonical name itself. -/
def projectionResultName (fieldName : String) (aliasName : Option String) : String :=
  match aliasName with
  | some a => a
  | none =>
    if sStartsWith fieldName "->" || sStartsWith fieldName "<-" then
      (sSplitOn fieldName "->").getLast?.getD fieldName
    else fieldName

/-- The projection loop of `apply_field_selection`
(`src/surrealix-core/src/analyzer/select.rs` lines 136–205), one iteration per
projection item, accumulating `result_fields`. -/
def applyFieldsLoop (schema baseType : TypeAST)
    (baseFields : List (String × TypeAST × FieldMetadata))
    (omits : Option (List (List Part))) (tableName : String) :
    List SelectField → List (String × TypeAST × FieldMetadata) →
    Except AnalyzeSelectError (List (String × TypeAST × FieldMetadata))
  | [], acc => .ok acc
  | f :: fs, acc =>
    match f with
    | .all =>
      let accNext := baseFields.foldl
        (fun acc2 entry =>
          match entry with
          | (n, a, m) =>
            if is_field_omitted n omits then acc2
            else insertField acc2 n
              (a, { m with original_path := tableName :: m.original_path }))
        acc
      applyFieldsLoop schema baseType baseFields omits tableName fs accNext
    | .single e aliasName =>
      match e with
      | .idiom parts => do
        let resolved ← resolve_graph_traversal schema baseType parts
        let resultName := projectionResultName resolved.1 aliasName
        if is_field_omitted resultName omits then
          applyFieldsLoop schema baseType baseFields omits tableName fs acc
        else
          applyFieldsLoop schema baseType baseFields omits tableName fs
            (insertField acc resultName
              (resolved.2,
               ⟨resolved.1, tableName :: parts.map partToString, Permissions.dflt⟩))
      | _ => .error (.unsupportedOperation "Unsupported field expression")

/-- `apply_field_selection` (`src/surrealix-core/src/analyzer/select.rs`).
The `table_name` extraction reads an arbitrary field of the base object
(`values().next()`), which in the canonical map model is the head of the
sorted field list. -/
def apply_field_selection (schema baseType : TypeAST) (expr : List SelectField)
    (omits : Option (List (List Part))) : Except AnalyzeSelectError TypeAST :=
  match baseType with
  | .object baseFields =>
    let tableName :=
      match baseFields with
      | [] => "unknown"
      | (_, _, m) :: _ => m.original_path.head?.getD "unknown"
    (applyFieldsLoop schema baseType baseFields omits tableName expr []).map TypeAST.object
  | _ => .error .invalidFieldType

/-- One iteration of the FETCH loop in `analyze_select`
(`src/surrealix-core/src/analyzer/select.rs` lines 39–64): resolve the fetch
idiom against the current result; a `Record` or an `Array` of `Record` triggers
`replace_record_links` over the whole current result; anything else is an
`UnsupportedOperation` (the original formats the offending type into the
message; the payload text is abbreviated here). -/
def fetch_step (schema cur : TypeAST) (item : List Part) :
    Except AnalyzeSelectError TypeAST := do
  let fetched ← (resolve_idiom cur item).mapError AnalyzeSelectError.astError
  match fetched with
  | .record _ => (replace_record_links schema cur).mapError AnalyzeSelectError.astError
  | .array elem _ =>
    match elem with
    | .record _ => (replace_record_links schema cur).mapError AnalyzeSelectError.astError
    | _ => .error (.unsupportedOperation "Unsupported fetch type")
  | _ => .error (.unsupportedOperation "Unsupported fetch type")

/-- The VALUE stage of `analyze_select` (lines 66–84): when the projection list
has exactly one item and the VALUE flag is set, the projected object is
replaced by its single field's type (`values().next()`, i.e. the head of the
canonical field list), unwrapping one `Array` layer if present. -/
def valueStage (exprLen1AndValue : Bool) (selected : TypeAST) :
    Except AnalyzeSelectError TypeAST :=
  if exprLen1AndValue then
    match selected with
    | .object obj =>
      match obj with
      | (_, a, _) :: _ =>
        match a with
        | .array elem _ => .ok elem
        | _ => .ok a
      | [] => .error .invalidFieldType
    | _ => .error .invalidFieldType
  else .ok selected

/-- `analyze_select` (`src/surrealix-core/src/analyzer/select.rs`): FROM
resolution, field projection, FETCH expansion, VALUE unwrap, and the final
cardinality wrap (`Array(value_type, None)` unless ONLY is set). -/
def analyze_select (schema : TypeAST) (stmt : SelectStatement) :
    Except AnalyzeSelectError TypeAST :=
  match schema with
  | .object schemaObj => do
    let baseType ← analyze_from schemaObj stmt.what
    let selected ← apply_field_selection schema baseType stmt.exprFields stmt.omits
    let fetched ←
      match stmt.fetch with
      | some items => items.foldlM (fetch_step schema) selected
      | none => .ok selected
    let valueType ← valueStage (stmt.exprFields.length == 1 && stmt.exprValue) fetched
    .ok (if stmt.only then valueType else .array valueType none)
  | _ => .error .invalidSchema

/-- `QueryType` from `src/surrealix-core/src/types.rs`.  A
`TypedQuery { query_type, perms }` is modelled as the pair
`QueryType × Permissions`; the object map (only ever built empty by the
function table) as an association list. -/
inductive QueryType where
  | scalar (k : Kind)
  | object (fields : List (String × QueryType × Permissions))
  | array (inner : Option (QueryType × Permissions)) (len : Option Nat)
  | record (t : String)
  | option' (inner : QueryType × Permissions)

/-- `TypedQuery` from `src/surrealix-core/src/types.rs`. -/
abbrev TypedQuery := QueryType × Permissions

/-- `get_array_inner_type` (`src/surrealix-core/src/analyzer/function/array.rs`). -/
def get_array_inner_type (q : QueryType) : Option QueryType :=
  match q with
  | .array (some inner) _ => some inner.1
  | _ => none

/-- `array_identity` (`array.rs`): first argument unchanged, or an untyped
array. -/
def array_identity (args : List TypedQuery) : TypedQuery :=
  args.headD (.array none none, .none')

/-- `array_to_bool` (`array.rs`). -/
def array_to_bool (args : List TypedQuery) : TypedQuery := (.scalar .bool, .none')

/-- `array_to_number` (`array.rs`). -/
def array_to_number (args : List TypedQuery) : TypedQuery := (.scalar .int, .none')

/-- `array_to_string` (`array.rs`). -/
def array_to_string (args : List TypedQuery) : TypedQuery := (.scalar .string, .none')

/-- `array_at` (`array.rs`). -/
def array_at (args : List TypedQuery) : TypedQuery :=
  match args.head? with
  | some arg =>
    match get_array_inner_type arg.1 with
    | some inner => (inner, .none')
    | none => (.scalar .any, .none')
  | none => (.scalar .any, .none')

/-- `array_clump` (`array.rs`). -/
def array_clump (args : List TypedQuery) : TypedQuery :=
  match args.head? with
  | some arg => (.array (some arg) none, .none')
  | none => (.array none none, .none')

/-- `array_flatten` (`array.rs`). -/
def array_flatten (args : List TypedQuery) : TypedQuery :=
  match args.head? with
  | some arg =>
    match get_array_inner_type arg.1 with
    | some inner =>
      match get_array_inner_type inner with
      | some innerInner => (.array (some (innerInner, .none')) none, .none')
      | none => (.array none none, .none')
    | none => (.array none none, .none')
  | none => (.array none none, .none')

/-- `analyze_array` (`src/surrealix-core/src/analyzer/function/array.rs`):
matches the full function name. -/
def analyze_array (name : String) (args : List TypedQuery) : TypedQuery :=
  match name with
  | "array::add" | "array::append" | "array::combine" | "array::concat"
  | "array::difference" | "array::distinct" | "array::group" | "array::insert"
  | "array::intersect" | "array::pop" | "array::prepend" | "array::push"
  | "array::remove" | "array::reverse" | "array::shuffle" | "array::sort"
  | "array::slice" | "array::transpose" | "array::union" => array_identity args
  | "array::all" | "array::any" => array_to_bool args
  | "array::len" | "array::find_index" => array_to_number args
  | "array::join" => array_to_string args
  | "array::at" => array_at args
  | "array::clump" => array_clump args
  | "array::flatten" => array_flatten args
  | "array::first" | "array::last" | "array::max" | "array::min" =>
    (match args.head? with
     | some arg =>
       match get_array_inner_type arg.1 with
       | some inner => (inner, .none')
       | none => (.scalar .any, .none')
     | none => (.scalar .any, .none'))
  | _ => (.scalar .any, .none')

/-- `analyze_crypto` (`crypto.rs`).  `parts[1]`/`parts[2]` index out of bounds
(a Rust panic) when the name has too few segments: modelled as `none`. -/
def analyze_crypto (name : String) (args : List TypedQuery) : Option TypedQuery := do
  let parts := sSplitOn name "::"
  let p1 ← parts.get? 1
  match p1 with
  | "md5" | "sha1" | "sha256" | "sha512" => some (.scalar .string, .none')
  | "argon2" | "bcrypt" | "pbkdf2" | "scrypt" => do
    let p2 ← parts.get? 2
    match p2 with
    | "compare" => some (.scalar .bool, .none')
    | "generate" => some (.scalar .string, .none')
    | _ => some (.scalar .any, .none')
  | _ => some (.scalar .any, .none')

/-- `analyze_datatype` (`datatype.rs`); the `thing`/`range` arms are `todo!()`
panics, modelled as `none`. -/
def analyze_datatype (name : String) (args : List TypedQuery) : Option TypedQuery :=
  let parts := sSplitOn name "::"
  match parts.get? 1 with
  | some "bool" => some (.scalar .bool, .none')
  | some "datetime" => some (.scalar .datetime, .none')
  | some "decimal" => some (.scalar .decimal, .none')
  | some "duration" => some (.scalar .duration, .none')
  | some "float" => some (.scalar .float, .none')
  | some "int" => some (.scalar .int, .none')
  | some "number" => some (.scalar .number, .none')
  | some "point" => some (.scalar (.geometry []), .none')
  | some "string" => some (.scalar .string, .none')
  | some "table" => some (.scalar .string, .none')
  | some "thing" => none
  | some "range" => none
  | some "field" | some "fields" => some (.scalar .any, .none')
  | some "is" =>
    (match parts.get? 2 with
     | some _ => some (.scalar .bool, .none')
     | none => some (.scalar .any, .none'))
  | _ => some (.scalar .any, .none')

/-- `analyze_duration` (`duration.rs`); `parts[1]`/`parts[2]` panics modelled
as `none`. -/
def analyze_duration (name : String) (args : List TypedQuery) : Option TypedQuery := do
  let parts := sSplitOn name "::"
  let p1 ← parts.get? 1
  match p1 with
  | "days" | "hours" | "micros" | "millis" | "mins" | "nanos" | "secs"
  | "weeks" | "years" => some (.scalar .number, .none')
  | "from" => do
    let p2 ← parts.get? 2
    match p2 with
    | "days" | "hours" | "micros" | "millis" | "mins" | "nanos" | "secs"
    | "weeks" => some (.scalar .duration, .none')
    | _ => some (.scalar .any, .none')
  | _ => some (.scalar .any, .none')

/-- `analyze_math` (`math.rs`); `parts[1]` panic modelled as `none`. -/
def analyze_math (name : String) (args : List TypedQuery) : Option TypedQuery := do
  let parts := sSplitOn name "::"
  let p1 ← parts.get? 1
  match p1 with
  | "e" | "pi" | "tau" | "inf" => some (.scalar .number, .none')
  | "abs" | "ceil" | "floor" | "round" | "sqrt" | "fixed" => some (.scalar .number, .none')
  | "max" | "min" | "mean" | "median" | "mode" | "product" | "sum"
  | "interquartile" | "midhinge" | "spread" | "stddev" | "trimean"
  | "variance" => some (.scalar .number, .none')
  | "percentile" | "nearestrank" => some (.scalar .number, .none')
  | "bottom" | "top" =>
    some (.array (some (.scalar .number, .none')) none, .none')
  | _ => some (.scalar .any, .none')

/-- `analyze_object` (`object.rs`); `parts[1]` panic modelled as `none`. -/
def analyze_object (name : String) (args : List TypedQuery) : Option TypedQuery := do
  let parts := sSplitOn name "::"
  let p1 ← parts.get? 1
  match p1 with
  | "entries" =>
    some (.array (some (.array (some (.scalar .any, .none')) (some 2), .none')) none, .none')
  | "from_entries" => some (.object [], .none')
  | "keys" => some (.array (some (.scalar .string, .none')) none, .none')
  | "len" => some (.scalar .int, .none')
  | "values" => some (.array (some (.scalar .any, .none')) none, .none')
  | _ => some (.scalar .any, .none')

/-- `analyze_parse` (`parse.rs`); `parts[1]`/`parts[2]` panics modelled as
`none`. -/
def analyze_parse (name : String) (args : List TypedQuery) : Option TypedQuery := do
  let parts := sSplitOn name "::"
  let p1 ← parts.get? 1
  let p2 ← parts.get? 2
  match p1, p2 with
  | "email", "host" | "email", "user" =>
    some (.option' (.scalar .string, .full), .none')
  | "url", "domain" | "url", "fragment" | "url", "host" | "url", "path"
  | "url", "query" => some (.option' (.scalar .string, .full), .none')
  | "url", "port" => some (.option' (.scalar .int, .full), .none')
  | _, _ => some (.scalar .any, .none')

/-- `analyze_rand` (`rand.rs`): total (`parts.get`). -/
def analyze_rand (name : String) (args : List TypedQuery) : TypedQuery :=
  let parts := sSplitOn name "::"
  match parts.get? 1 with
  | some "bool" => (.scalar .bool, .none')
  | some "enum" => (.scalar .any, .none')
  | some "float" => (.scalar .float, .none')
  | some "guid" => (.scalar .string, .none')
  | some "int" => (.scalar .int, .none')
  | some "string" => (.scalar .string, .none')
  | some "time" => (.scalar .datetime, .none')
  | some "uuid" =>
    if parts.get? 2 == some "v4" || parts.get? 2 == some "v7" then
      (.scalar .uuid, .none')
    else
      (.scalar .uuid, .none')
  | some "ulid" => (.scalar .string, .none')
  | none => (.scalar .float, .none')
  | _ => (.scalar .any, .none')

/-- `analyze_search` (`search.rs`): total. -/
def analyze_search (name : String) (args : List TypedQuery) : TypedQuery :=
  let parts := sSplitOn name "::"
  match parts.get? 1 with
  | some "score" => (.array (some (.scalar .float, .none')) none, .none')
  | some "highlight" => (.array (some (.scalar .string, .none')) none, .none')
  | some "offsets" => (.array (some (.object [], .none')) none, .none')
  | _ => (.array (some (.scalar .any, .none')) none, .none')

/-- `analyze_string` (`string.rs`): total. -/
def analyze_string (name : String) (args : List TypedQuery) : TypedQuery :=
  let parts := sSplitOn name "::"
  match parts.get? 1 with
  | some "concat" | some "join" | some "lowercase" | some "repeat"
  | some "replace" | some "reverse" | some "slice" | some "slug"
  | some "trim" | some "uppercase" => (.scalar .string, .none')
  | some "contains" | some "endsWith" | some "startsWith" => (.scalar .bool, .none')
  | some "len" => (.scalar .int, .none')
  | some "split" | some "words" =>
    (.array (some (.scalar .string, .none')) none, .none')
  | some "is" =>
    (match parts.get? 2 with
     | some "alphanum" | some "alpha" | some "ascii" | some "datetime"
     | some "domain" | some "email" | some "hexadecimal" | some "latitude"
     | some "longitude" | some "numeric" | some "semver" | some "url"
     | some "uuid" => (.scalar .bool, .none')
     | _ => (.scalar .any, .none'))
  | some "semver" =>
    (match parts.get? 2 with
     | some "compare" => (.scalar .int, .none')
     | some "major" | some "minor" | some "patch" => (.scalar .int, .none')
     | some "inc" | some "set" => (.scalar .string, .none')
     | _ => (.scalar .any, .none'))
  | _ => (.scalar .any, .none')

/-- `analyze_time` (`time.rs`): total. -/
def analyze_time (name : String) (args : List TypedQuery) : TypedQuery :=
  let parts := sSplitOn name "::"
  match parts.get? 1 with
  | some "day" | some "hour" | some "minute" | some "month" | some "second"
  | some "wday" | some "week" | some "yday" | some "year" | some "micros"
  | some "millis" | some "nano" | some "unix" => (.scalar .int, .none')
  | some "floor" | some "round" | some "group" | some "now" | some "max"
  | some "min" => (.scalar .datetime, .none')
  | some "format" => (.scalar .string, .none')
  | some "timezone" => (.scalar .string, .none')
  | some "from" =>
    (match parts.get? 2 with
     | some "micros" | some "millis" | some "nanos" | some "secs"
     | some "unix" => (.scalar .datetime, .none')
     | _ => (.scalar .any, .none'))
  | _ => (.scalar .any, .none')

/-- `analyze_vector` (`vector.rs`): total. -/
def analyze_vector (name : String) (args : List TypedQuery) : TypedQuery :=
  let parts := sSplitOn name "::"
  match parts.get? 1 with
  | some "add" | some "cross" | some "divide" | some "multiply"
  | some "normalize" | some "project" | some "subtract" =>
    (.array (some (.scalar .number, .none')) none, .none')
  | some "angle" | some "dot" | some "magnitude" => (.scalar .float, .none')
  | some "distance" =>
    (match parts.get? 2 with
     | some "chebyshev" | some "euclidean" | some "hamming" | some "manhattan"
     | some "minkowski" => (.scalar .float, .none')
     | _ => (.scalar .any, .none'))
  | some "similarity" =>
    (match parts.get? 2 with
     | some "cosine" | some "jaccard" | some "pearson" => (.scalar .float, .none')
     | _ => (.scalar .any, .none'))
  | _ => (.scalar .any, .none')

/-- `analyze_function` (`src/surrealix-core/src/analyzer/function/mod.rs`),
dispatching on the first `::`-segment of the function name.  `none` models a
Rust panic (`todo!()` in the `meta` arm, out-of-bounds `parts[i]` indexing in
several arms); every recognized total arm and the final catch-all return
`some`.  The catch-all returns `Scalar(Any)` with full permissions. -/
def analyze_function (name : String) (args : List TypedQuery) : Option TypedQuery :=
  let parts := sSplitOn name "::"
  match parts.headD "" with
  | "array" => some (analyze_array name args)
  | "crypto" => analyze_crypto name args
  | "duration" => analyze_duration name args
  | "math" => analyze_math name args
  | "object" => analyze_object name args
  | "parse" => analyze_parse name args
  | "rand" => some (analyze_rand name args)
  | "search" => some (analyze_search name args)
  | "type" => analyze_datatype name args
  | "vector" => some (analyze_vector name args)
  | "session" => some (.scalar .string, .full)
  | "sleep" => some (.scalar .null, .none')
  | "string" => some (analyze_string name args)
  | "time" => some (analyze_time name args)
  | "meta" =>
    (match parts.get? 1 with
     | some "id" => some (.scalar .string, .none')
     | some "tb" => some (.scalar .string, .none')
     | _ => none)
  | "encoding" =>
    (match parts.get? 1 with
     | some "base64" =>
       (match parts.get? 2 with
        | some "encode" => some (.scalar .string, .none')
        | some "decode" => some (.scalar .bytes, .none')
        | some _ => some (.scalar .any, .none')
        | none => none)
     | some _ => some (.scalar .any, .none')
     | none => none)
  | "http" =>
    (match parts.get? 1 with
     | some "head" => some (.scalar .null, .none')
     | some "get" | some "put" | some "post" | some "patch" | some "delete" =>
       some (.scalar .any, .none')
     | some _ => some (.scalar .any, .none')
     | none => none)
  | "count" => some (.scalar .int, .full)
  | _ => some (.scalar .any, .full)

/-! ### Stage decomposition of `analyze_select`

`analyze_select` is a five-stage pipeline.  The following definitions name its
prefixes so that theorems can speak about "the projected result" (stages 1–3)
and "the possibly VALUE-unwrapped type" (stages 1–4); the factorization lemma
below proves that `analyze_select` is exactly these stages followed by the
cardinality wrap. -/

/-- Stages 1–3 of `analyze_select`: FROM resolution, field projection, FETCH
expansion. -/
def analyzeSelectProjected (schema : TypeAST) (stmt : SelectStatement) :
    Except AnalyzeSelectError TypeAST :=
  match schema with
  | .object schemaObj => do
    let baseType ← analyze_from schemaObj stmt.what
    let selected ← apply_field_selection schema baseType stmt.exprFields stmt.omits
    match stmt.fetch with
    | some items => items.foldlM (fetch_step schema) selected
    | none => .ok selected
  | _ => .error .invalidSchema

/-- Stages 1–4 of `analyze_select`: the projected result followed by the VALUE
unwrap. -/
def analyzeSelectValueType (schema : TypeAST) (stmt : SelectStatement) :
    Except AnalyzeSelectError TypeAST := do
  let projected ← analyzeSelectProjected schema stmt
  valueStage (stmt.exprFields.length == 1 && stmt.exprValue) projected

/-- The one-array-layer unwrap applied by the VALUE stage to the single field's
type (lines 72–75 of `select.rs`). -/
def unwrapValueLayer : TypeAST → TypeAST
  | .array elem _ => elem
  | t => t

/-- The test applied to a resolved fetch type by the FETCH loop: `Record` or
`Array` of `Record`. -/
def isFetchRecordish : TypeAST → Bool
  | .record _ => true
  | .array (.record _) _ => true
  | _ => false

/-- `>>=` on an `Except.ok` value reduces. -/
theorem exceptBindOk {α β ε : Type} (a : α) (f : α → Except ε β) :
    (Except.ok a : Except ε α) >>= f = f a := rfl

/-- `>>=` on an `Except.error` value short-circuits. -/
theorem exceptBindError {α β ε : Type} (e : ε) (f : α → Except ε β) :
    (Except.error e : Except ε α) >>= f = .error e := rfl

/-- `analyze_select` factors through its stages: it is stages 1–4 followed by
the cardinality wrap. -/
theorem analyze_select_factor (schema : TypeAST) (stmt : SelectStatement) :
    analyze_select schema stmt =
      (analyzeSelectValueType schema stmt).bind
        (fun v => .ok (if stmt.only then v else .array v none)) := by
  cases schema with
  | object schemaObj =>
    simp only [analyze_select, analyzeSelectValueType, analyzeSelectProjected]
    cases hFrom : analyze_from schemaObj stmt.what with
    | error e => rfl
    | ok baseType =>
      simp only [exceptBindOk]
      cases hSel : apply_field_selection (.object schemaObj) baseType stmt.exprFields stmt.omits with
      | error e => rfl
      | ok selected =>
        simp only [exceptBindOk]
        cases hF : stmt.fetch with
        | none =>
          cases hVal : valueStage (stmt.exprFields.length == 1 && stmt.exprValue) selected with
          | error e => simp [exceptBindOk, exceptBindError, hVal, Except.bind]
          | ok v => simp [exceptBindOk, exceptBindError, hVal, Except.bind]
        | some items =>
          cases hFold : items.foldlM (fetch_step (.object schemaObj)) selected with
          | error e => simp [exceptBindOk, exceptBindError, hFold, Except.bind]
          | ok fetched =>
            simp only [exceptBindOk]
            cases hVal : valueStage (stmt.exprFields.length == 1 && stmt.exprValue) fetched with
            | error e => simp [exceptBindOk, exceptBindError, hFold, hVal, Except.bind]
            | ok v => simp [exceptBindOk, exceptBindError, hFold, hVal, Except.bind]
  | scalar s => rfl
  | array e l => rfl
  | option' i => rfl
  | record t => rfl
  | union vs => rfl

/-! ### Shared concrete example data for witnesses -/

/-- Example metadata builder. -/
def egMeta (n : String) (p : List String) : FieldMetadata := ⟨n, p, .dflt⟩

/-- Example schema: one table `user` with a single numeric field `age`. -/
def egSchema : TypeAST :=
  .object [("user",
    .object [("age", .scalar .number, egMeta "age" ["user", "age"])],
    egMeta "user" ["user"])]

/-- `SELECT * FROM user` over `egSchema`. -/
def egSelectAll : SelectStatement :=
  ⟨[.all], false, none, [.table "user"], none, false⟩

/-- `SELECT age FROM user FETCH age` over `egSchema` (a fetch on a scalar). -/
def egFetchScalar : SelectStatement :=
  ⟨[.single (.idiom [.field "age"]) none], false, none, [.table "user"],
   some [[.field "age"]], false⟩

/-- `SELECT VALUE age FROM user` over `egSchema`. -/
def egSelectValueAge : SelectStatement :=
  ⟨[.single (.idiom [.field "age"]) none], true, none, [.table "user"], none, false⟩

/-! ### C1: cardinality wrap -/

/-- C1: for every schema and SELECT statement whose analysis succeeds, the
returned type is the (possibly VALUE-unwrapped) pipeline type `v`, wrapped as
`Array(v, None)` when the ONLY flag is not set and returned bare when ONLY is
set. -/
theorem c1_cardinality_wrap (schema : TypeAST) (stmt : SelectStatement) (t : TypeAST)
    (h : analyze_select schema stmt = .ok t) :
    ∃ v, analyzeSelectValueType schema stmt = .ok v ∧
      t = (if stmt.only then v else .array v none) := by
  rw [analyze_select_factor] at h
  cases hv : analyzeSelectValueType schema stmt with
  | error e => rw [hv] at h; exact absurd h (by simp [Except.bind])
  | ok v =>
    rw [hv] at h
    simp only [Except.bind] at h
    exact ⟨v, rfl, (Except.ok.injEq _ _ ▸ h).symm⟩

/-- Witness for C1 at `SELECT * FROM user` over the example schema. -/
theorem c1_witness :
    ∃ v, analyzeSelectValueType egSchema egSelectAll = .ok v ∧
      TypeAST.array
        (.object [("age", .scalar .number, ⟨"age", ["user", "user", "age"], .dflt⟩)]) none
        = (if egSelectAll.only then v else .array v none) :=
  c1_cardinality_wrap egSchema egSelectAll _ (by rfl)

/-! ### C3: FETCH on a non-record type fails -/

/-- A fetch item whose idiom resolves to a non-record type makes `fetch_step`
fail with `UnsupportedOperation`. -/
theorem fetch_step_non_record (schema cur : TypeAST) (item : List Part) (ft : TypeAST)
    (hres : resolve_idiom cur item = .ok ft)
    (hnr : isFetchRecordish ft = false) :
    fetch_step schema cur item = .error (.unsupportedOperation "Unsupported fetch type") := by
  unfold fetch_step
  rw [hres]
  cases ft with
  | record t => simp [isFetchRecordish] at hnr
  | array elem len =>
    cases elem with
    | record t => simp [isFetchRecordish] at hnr
    | scalar s => rfl
    | object fs => rfl
    | array e2 l2 => rfl
    | option' i => rfl
    | union vs => rfl
  | scalar s => rfl
  | object fs => rfl
  | option' i => rfl
  | union vs => rfl

/-- C3: if, while processing the FETCH list in order, some fetch path resolves
(against the successively rewritten projected result) to a type that is
neither a `RecordRef` nor an `Array` of `RecordRef`, the whole analysis fails
with an `UnsupportedOperation` error and never returns a result type. -/
theorem c3_fetch_non_record_fails (schemaObj : List (String × TypeAST × FieldMetadata))
    (stmt : SelectStatement) (pre post : List (List Part)) (item : List Part)
    (B P Q ft : TypeAST)
    (hfetch : stmt.fetch = some (pre ++ item :: post))
    (hfrom : analyze_from schemaObj stmt.what = .ok B)
    (hsel : apply_field_selection (.object schemaObj) B stmt.exprFields stmt.omits = .ok P)
    (hpre : pre.foldlM (fetch_step (.object schemaObj)) P = .ok Q)
    (hres : resolve_idiom Q item = .ok ft)
    (hnr : isFetchRecordish ft = false) :
    analyze_select (.object schemaObj) stmt =
      .error (.unsupportedOperation "Unsupported fetch type") := by
  have hproj : analyzeSelectProjected (.object schemaObj) stmt =
      .error (.unsupportedOperation "Unsupported fetch type") := by
    simp only [analyzeSelectProjected, hfrom, exceptBindOk, hsel, hfetch]
    rw [List.foldlM_append, hpre]
    simp only [exceptBindOk, List.foldlM_cons,
      fetch_step_non_record (.object schemaObj) Q item ft hres hnr]
    rfl
  rw [analyze_select_factor]
  unfold analyzeSelectValueType
  rw [hproj]
  rfl

/-- Witness for C3: `SELECT age FROM user FETCH age` (a plain scalar fetch
path) over the example schema. -/
theorem c3_witness :
    analyze_select egSchema egFetchScalar =
      .error (.unsupportedOperation "Unsupported fetch type") :=
  c3_fetch_non_record_fails
    [("user", .object [("age", .scalar .number, egMeta "age" ["user", "age"])],
      egMeta "user" ["user"])]
    egFetchScalar [] [] [.field "age"]
    (.object [("age", .scalar .number, egMeta "age" ["user", "age"])])
    (.object [("age", .scalar .number, ⟨"age", ["user", ".age"], .dflt⟩)])
    (.object [("age", .scalar .number, ⟨"age", ["user", ".age"], .dflt⟩)])
    (.scalar .number)
    rfl rfl rfl rfl rfl rfl

/-! ### C4: VALUE unwrap -/

/-- C4: when the projection list has exactly one item and the VALUE flag is
set, the whole projected object is replaced by its single field's type with
one `Array` layer unwrapped first; the cardinality wrap then applies as
usual. -/
theorem c4_value_unwrap (schema : TypeAST) (stmt : SelectStatement)
    (n : String) (a : TypeAST) (m : FieldMetadata)
    (hlen : stmt.exprFields.length = 1) (hval : stmt.exprValue = true)
    (hproj : analyzeSelectProjected schema stmt = .ok (.object [(n, a, m)])) :
    analyze_select schema stmt =
      .ok (if stmt.only then unwrapValueLayer a
           else .array (unwrapValueLayer a) none) := by
  rw [analyze_select_factor]
  unfold analyzeSelectValueType
  rw [hproj]
  simp only [exceptBindOk, hlen, hval, valueStage]
  cases a with
  | array elem len => rfl
  | scalar s => rfl
  | object fs => rfl
  | option' i => rfl
  | record t => rfl
  | union vs => rfl

/-- Witness for C4: `SELECT VALUE age FROM user` over the example schema
yields `Array(Scalar(Number))`, not `Array(Object {age})`. -/
theorem c4_witness :
    analyze_select egSchema egSelectValueAge =
      .ok (if egSelectValueAge.only then unwrapValueLayer (.scalar .number)
           else .array (unwrapValueLayer (.scalar .number)) none) :=
  c4_value_unwrap egSchema egSelectValueAge "age" (.scalar .number)
    ⟨"age", ["user", ".age"], .dflt⟩ rfl rfl rfl

/-! ### C9: unknown built-in functions widen to `Scalar(Any)` -/

/-- The first-segment namespaces recognized by `analyze_function`'s dispatch. -/
def recognizedNamespaces : List String :=
  ["array", "crypto", "duration", "math", "object", "parse", "rand", "search",
   "type", "vector", "session", "sleep", "string", "time", "meta", "encoding",
   "http", "count"]

/-- C9 counterexample: the original claim quantifies over every function name
the signature table does not recognize, but an unrecognized name inside a
recognized namespace does not get `Scalar(Any)` with full permissions —
`meta::xyz` hits the meta branch's `todo!()` panic (modelled as `none`), and
`crypto::zzz` / `array::boolean_and` fall into namespace-local catch-alls that
return `Scalar(Any)` with NONE permissions, not full. -/
theorem c9_counterexample :
    analyze_function "meta::xyz" [] = none ∧
    analyze_function "crypto::zzz" [] = some (.scalar .any, .none') ∧
    analyze_function "array::boolean_and" [] = some (.scalar .any, .none') ∧
    Permissions.none' ≠ Permissions.full := by
  refine ⟨rfl, rfl, rfl, ?_⟩
  simp

/-- C9 (amended): for every function name whose first `::`-segment is not a
recognized namespace, `analyze_function` returns `Scalar(Any)` with full
permissions for any argument list — it neither errors nor panics. -/
theorem c9_unknown_function_widens (name : String) (args : List TypedQuery)
    (h : ((sSplitOn name "::").headD "") ∉ recognizedNamespaces) :
    analyze_function name args = some (.scalar .any, .full) := by
  simp only [analyze_function]
  split
  all_goals first
    | rfl
    | (exfalso; apply h; simp_all [recognizedNamespaces])

/-- Witness for C9 at the unrecognized name `foo::bar`. -/
theorem c9_witness : analyze_function "foo::bar" [] = some (.scalar .any, .full) :=
  c9_unknown_function_widens "foo::bar" [] (by decide)

/-! ### C10: OMIT matches only the first idiom segment -/

/-- Example base object with a nested `address` object and a scalar `age`. -/
def egNestUserFields : List (String × TypeAST × FieldMetadata) :=
  [("address",
    .object [("city", .scalar .string, egMeta "city" ["user", "address", "city"])],
    egMeta "address" ["user", "address"]),
   ("age", .scalar .number, egMeta "age" ["user", "age"])]

/-- Example schema for the OMIT illustration. -/
def egNestSchema : TypeAST :=
  .object [("user", .object egNestUserFields, egMeta "user" ["user"])]

/-- C10: (i) a field name is omitted exactly when the FIRST segment of some
OMIT idiom is a field part with that identifier — the remaining segments are
ignored; (ii) consequently `SELECT * OMIT address.city` removes the whole
top-level `address` field, not just the nested member. -/
theorem c10_omit_first_segment :
    (∀ (fieldName : String) (omits : Option (List (List Part))),
      is_field_omitted fieldName omits = true ↔
        ∃ idioms idiom tail, omits = some idioms ∧ idiom ∈ idioms ∧
          idiom = Part.field fieldName :: tail)
    ∧ apply_field_selection egNestSchema (.object egNestUserFields) [.all]
        (some [[.field "address", .field "city"]])
      = .ok (.object [("age", .scalar .number,
          ⟨"age", ["user", "user", "age"], .dflt⟩)]) := by
  constructor
  · intro fieldName omits
    unfold is_field_omitted
    cases omits with
    | none => simp
    | some idioms =>
      simp only [List.any_eq_true]
      constructor
      · rintro ⟨idiom, hmem, hpred⟩
        cases idiom with
        | nil => simp at hpred
        | cons p tail =>
          cases p with
          | field ident =>
            simp only [List.head?] at hpred
            have : ident = fieldName := by
              simpa using hpred
            exact ⟨idioms, Part.field ident :: tail, tail, rfl, hmem, by rw [this]⟩
          | all => simp at hpred
          | graph d e => simp at hpred
          | other => simp at hpred
      · rintro ⟨idioms', idiom, tail, heq, hmem, hidiom⟩
        cases heq
        exact ⟨idiom, hmem, by rw [hidiom]; simp⟩
  · rfl

/-- Witness for C10: the iff applied at the nested OMIT idiom
`address.city` and the name `address`. -/
theorem c10_witness :
    is_field_omitted "address" (some [[.field "address", .field "city"]]) = true :=
  (c10_omit_first_segment.1 "address"
    (some [[.field "address", .field "city"]])).mpr
    ⟨[[.field "address", .field "city"]], [.field "address", .field "city"],
     [.field "city"], rfl, by simp, rfl⟩

/-! ### C6: array-kind field declarations insert an untyped array -/

/-- C6: a field declaration whose kind is `array` (parameterized or not)
inserts an entry of type `Array(Scalar(Any), None)` — the code's rendering of
an array with no element type — and a subsequent wildcard declaration `p.*` is
what sets the element type of an existing array entry. -/
theorem c6_array_kind_untyped (tn fname aname : String) (k k2 : Kind)
    (l alen : Option Nat) (perms perms2 : Permissions)
    (rootFields tFields : List (String × TypeAST × FieldMetadata))
    (tMeta : FieldMetadata) (elem : TypeAST) (aMeta : FieldMetadata)
    (htable : getField rootFields (sLower tn) = some (.object tFields, tMeta))
    (hentry : getField tFields aname = some (.array elem alen, aMeta)) :
    apply_field_definition ⟨tn, [.field fname], some (.array k l), perms⟩
        (.object rootFields)
      = .ok (.object (insertField rootFields (sLower tn)
          (.object (insertField tFields fname
            (.array (.scalar .any) none, ⟨fname, [sLower tn, fname], perms⟩)), tMeta)))
    ∧ apply_field_definition ⟨tn, [.field aname, .all], some k2, perms2⟩
        (.object rootFields)
      = .ok (.object (insertField rootFields (sLower tn)
          (.object (insertField tFields aname
            (.array (kindToTypeAST k2) alen, aMeta)), tMeta))) := by
  constructor
  · simp only [apply_field_definition, htable, applyFieldParts, newFieldAst, isArrayKind]
    rfl
  · simp only [apply_field_definition, htable, applyFieldParts, hentry, fieldType,
      Option.getD]
    rfl

/-- Field list for the C6 witness: one existing untyped-array field `tags`. -/
def c6Fields : List (String × TypeAST × FieldMetadata) :=
  [("tags", .array (.scalar .any) none, egMeta "tags" ["user", "tags"])]

/-- One-table schema for the C6 witness. -/
def c6Schema : TypeAST := .object [("user", .object c6Fields, egMeta "user" ["user"])]

/-- Witness for C6: `links` declared `array<record<tag>>` (the parameter is
discarded) and `tags.*` declared `record<tag>` (the wildcard sets the element
of the existing untyped array). -/
theorem c6_witness :
    apply_field_definition ⟨"user", [.field "links"], some (.array (.record "tag" []) none), .dflt⟩
        c6Schema
      = .ok (.object (insertField [("user", .object c6Fields, egMeta "user" ["user"])] (sLower "user")
          (.object (insertField c6Fields "links"
            (.array (.scalar .any) none, ⟨"links", [sLower "user", "links"], .dflt⟩)),
           egMeta "user" ["user"])))
    ∧ apply_field_definition ⟨"user", [.field "tags", .all], some (.record "tag" []), .dflt⟩
        c6Schema
      = .ok (.object (insertField [("user", .object c6Fields, egMeta "user" ["user"])] (sLower "user")
          (.object (insertField c6Fields "tags"
            (.array (kindToTypeAST (.record "tag" [])) none, egMeta "tags" ["user", "tags"])),
           egMeta "user" ["user"]))) :=
  c6_array_kind_untyped "user" "links" "tags" (.record "tag" []) (.record "tag" [])
    none none .dflt .dflt
    [("user", .object c6Fields, egMeta "user" ["user"])] c6Fields
    (egMeta "user" ["user"]) (.scalar .any) (egMeta "tags" ["user", "tags"])
    (by rfl) (by rfl)

/-! ### C8: the `id`-field shortcut in graph-edge resolution -/

/-- The edge table of the C8 counterexample: `knows` exposing only `id`. -/
def c8Knows : List (String × TypeAST × FieldMetadata) :=
  [("id", .scalar .uuid, egMeta "id" ["knows", "id"])]

/-- The `user` table of the C8 counterexample. -/
def c8User : List (String × TypeAST × FieldMetadata) :=
  [("name", .scalar .string, egMeta "name" ["user", "name"])]

/-- The schema of the C8 counterexample: tables `knows` and `user`. -/
def c8Schema : TypeAST :=
  .object [("knows", .object c8Knows, egMeta "knows" ["knows"]),
           ("user", .object c8User, egMeta "user" ["user"])]

/-- Counterexample to C8 as stated: traversing `->knows` from `user`, where
edge table `knows` exposes an `id` field, resolves the destination to the
hardcoded table `user` — not to `knows`, the edge's own declaring table.  The
resolved type is `user`'s object (which differs from `knows`'s object) and the
canonical path is `->knows->user`, not `->knows->knows`. -/
theorem c8_counterexample :
    resolve_graph_traversal c8Schema (.object c8User) [.graph .outD "knows"]
      = .ok ("->knows->user", .array (.object c8User) none)
    ∧ TypeAST.object c8User ≠ TypeAST.object c8Knows
    ∧ "->knows->user" ≠ "->knows->knows" := by
  refine ⟨rfl, ?_, by decide⟩
  intro h
  have := congrArg
    (fun t => match t with
      | TypeAST.object fs => (getField fs "name").isSome
      | _ => false) h
  simp [c8User, c8Knows, getField] at this

/-- C8 (amended): whenever the edge object exposes an `id` field,
`find_relation_field` returns the hardcoded pair `("id", "user")` — the
destination is always the literal table name `"user"`, regardless of the
edge's own name, of its `in`/`out` fields, and even of the traversal
direction. -/
theorem c8_amended_id_shortcut (edgeFields : List (String × TypeAST × FieldMetadata))
    (dir : Dir) (h : (getField edgeFields "id").isSome = true) :
    find_relation_field edgeFields dir = .ok ("id", "user") := by
  unfold find_relation_field
  simp [h]

/-- Witness for the amended C8 at a concrete edge object. -/
theorem c8_witness :
    find_relation_field c8Knows .outD = .ok ("id", "user") :=
  c8_amended_id_shortcut c8Knows .outD (by rfl)

/-! ### Order lemmas for the canonical field maps -/

theorem charListLt_irrefl : ∀ l : List Char, charListLt l l = false
  | [] => rfl
  | a :: as => by
    simp [charListLt, charListLt_irrefl as]

theorem charListLt_asymm : ∀ (l₁ l₂ : List Char),
    charListLt l₁ l₂ = true → charListLt l₂ l₁ = false
  | [], [], h => by simp [charListLt] at h
  | [], _ :: _, _ => by simp [charListLt]
  | _ :: _, [], h => by simp [charListLt] at h
  | a :: as, b :: bs, h => by
    simp only [charListLt, Bool.or_eq_true, Bool.and_eq_true, decide_eq_true_eq,
      beq_iff_eq] at h
    rcases h with h | ⟨rfl, h⟩
    · have h1 : decide (b < a) = false := by
        simp [not_lt_of_lt h]
      have h2 : (b == a) = false := by
        simp [(ne_of_lt h).symm]
      simp [charListLt, h1, h2]
    · simp [charListLt, lt_irrefl, charListLt_asymm as bs h]

theorem charListLt_trans (l₁ : List Char) : ∀ (l₂ l₃ : List Char),
    charListLt l₁ l₂ = true → charListLt l₂ l₃ = true → charListLt l₁ l₃ = true := by
  induction l₁ with
  | nil =>
    intro l₂ l₃ h₁ h₂
    cases l₃ with
    | nil => cases l₂ <;> simp_all [charListLt]
    | cons c cs => simp [charListLt]
  | cons a as ih =>
    intro l₂ l₃ h₁ h₂
    cases l₂ with
    | nil => simp [charListLt] at h₁
    | cons b bs =>
      cases l₃ with
      | nil => simp [charListLt] at h₂
      | cons c cs =>
        simp only [charListLt, Bool.or_eq_true, Bool.and_eq_true, decide_eq_true_eq,
          beq_iff_eq] at h₁ h₂ ⊢
        rcases h₁ with h₁ | ⟨rfl, h₁⟩
        · rcases h₂ with h₂ | ⟨rfl, h₂⟩
          · exact Or.inl (lt_trans h₁ h₂)
          · exact Or.inl h₁
        · rcases h₂ with h₂ | ⟨rfl, h₂⟩
          · exact Or.inl h₂
          · exact Or.inr ⟨rfl, ih bs cs h₁ h₂⟩

theorem charListLt_total : ∀ (l₁ l₂ : List Char), l₁ ≠ l₂ →
    charListLt l₁ l₂ = false → charListLt l₂ l₁ = true
  | [], [], h, _ => absurd rfl h
  | [], _ :: _, _, h => by simp [charListLt] at h
  | _ :: _, [], _, _ => by simp [charListLt]
  | a :: as, b :: bs, hne, h => by
    simp only [charListLt, Bool.or_eq_false_iff, Bool.and_eq_false_iff] at h
    simp only [charListLt, Bool.or_eq_true, Bool.and_eq_true, decide_eq_true_eq,
      beq_iff_eq]
    rcases lt_trichotomy a b with hab | rfl | hba
    · exact absurd h.1 (by simp [hab])
    · rcases h.2 with h2 | h2
      · simp at h2
      · have : as ≠ bs := fun he => hne (by rw [he])
        exact Or.inr ⟨rfl, charListLt_total as bs this h2⟩
    · exact Or.inl hba

theorem sLt_irrefl (s : String) : sLt s s = false := charListLt_irrefl s.data

theorem sLt_asymm {a b : String} (h : sLt a b = true) : sLt b a = false :=
  charListLt_asymm a.data b.data h

theorem sLt_trans {a b c : String} (h₁ : sLt a b = true) (h₂ : sLt b c = true) :
    sLt a c = true := charListLt_trans a.data b.data c.data h₁ h₂

theorem sLt_total {a b : String} (hne : a ≠ b) (h : sLt a b = false) :
    sLt b a = true := by
  refine charListLt_total a.data b.data (fun hd => hne ?_) h
  cases a
  cases b
  exact congrArg String.mk hd

/-! ### Canonical (strictly key-sorted) trees -/

mutual

/-- Is every object field list in the tree strictly sorted by key? -/
def canonicalT : TypeAST → Bool
  | .scalar _ => true
  | .object fs => canonicalFs fs
  | .array elem _ => canonicalT elem
  | .option' inner => canonicalT inner
  | .record _ => true
  | .union vs => canonicalTs vs

/-- Strict sortedness of a field list, with canonical values. -/
def canonicalFs : List (String × TypeAST × FieldMetadata) → Bool
  | [] => true
  | [(_, a, _)] => canonicalT a
  | (k₁, a, m) :: (k₂, b, m₂) :: rest =>
    sLt k₁ k₂ && canonicalT a && canonicalFs ((k₂, b, m₂) :: rest)

def canonicalTs : List TypeAST → Bool
  | [] => true
  | a :: rest => canonicalT a && canonicalTs rest

end

/-- A canonical field list's head key is below every key found in its tail. -/
theorem canonicalFs_head_lt : ∀ (k : String) (a : TypeAST) (m : FieldMetadata)
    (rest : List (String × TypeAST × FieldMetadata)) (key : String)
    (v : TypeAST × FieldMetadata),
    canonicalFs ((k, a, m) :: rest) = true → getField rest key = some v →
    sLt k key = true
  | k, a, m, [], key, v, _, hg => by simp [getField] at hg
  | k, a, m, (k₂, b, m₂) :: rest, key, v, hc, hg => by
    simp only [canonicalFs, Bool.and_eq_true] at hc
    by_cases hk : k₂ = key
    · exact hk ▸ hc.1.1
    · have hg' : getField rest key = some v := by
        simpa [getField, hk] using hg
      have h₂ : canonicalFs ((k₂, b, m₂) :: rest) = true := hc.2
      cases rest with
      | nil => simp [getField] at hg'
      | cons p ps =>
        have := canonicalFs_head_lt k₂ b m₂ (p :: ps) key v h₂ hg'
        exact sLt_trans hc.1.1 this

/-- Tail of a canonical field list is canonical. -/
theorem canonicalFs_tail {e : String × TypeAST × FieldMetadata}
    {rest : List (String × TypeAST × FieldMetadata)}
    (h : canonicalFs (e :: rest) = true) : canonicalFs rest = true := by
  obtain ⟨k, a, m⟩ := e
  cases rest with
  | nil => rfl
  | cons p ps =>
    obtain ⟨k₂, b, m₂⟩ := p
    simp only [canonicalFs, Bool.and_eq_true] at h
    exact h.2

/-- Members of a canonical field list are canonical trees. -/
theorem canonicalFs_get : ∀ (fs : List (String × TypeAST × FieldMetadata))
    (key : String) (a : TypeAST) (m : FieldMetadata),
    canonicalFs fs = true → getField fs key = some (a, m) → canonicalT a = true
  | [], key, a, m, _, hg => by simp [getField] at hg
  | (k, b, m₀) :: rest, key, a, m, hc, hg => by
    by_cases hk : k = key
    · have : b = a := by simp [getField, hk] at hg; exact hg.1
      subst this
      cases rest with
      | nil => simpa [canonicalFs] using hc
      | cons p ps =>
        obtain ⟨k₂, c, m₂⟩ := p
        simp only [canonicalFs, Bool.and_eq_true] at hc
        exact hc.1.2
    · have hg' : getField rest key = some (a, m) := by simpa [getField, hk] using hg
      exact canonicalFs_get rest key a m (canonicalFs_tail hc) hg'

/-- Inserting the value already present at a key leaves a canonical field list
unchanged. -/
theorem insertField_self_of_get : ∀ (fs : List (String × TypeAST × FieldMetadata))
    (key : String) (v : TypeAST × FieldMetadata),
    canonicalFs fs = true → getField fs key = some v →
    insertField fs key v = fs
  | [], key, v, _, hg => by simp [getField] at hg
  | (k, a, m) :: rest, key, v, hc, hg => by
    by_cases hk : k = key
    · subst hk
      have hv : v = (a, m) := by
        simp only [getField, if_pos rfl] at hg
        exact (Option.some.injEq _ _ ▸ hg).symm
      subst hv
      simp [insertField, sLt_irrefl]
    · have hg' : getField rest key = some v := by simpa [getField, hk] using hg
      have hlt : sLt k key = true := canonicalFs_head_lt k a m rest key v hc hg'
      have hnlt : sLt key k = false := sLt_asymm hlt
      simp only [insertField, hnlt, Bool.false_eq_true, if_false,
        if_neg (Ne.symm hk)]
      rw [insertField_self_of_get rest key v (canonicalFs_tail hc) hg']

/-! ### C7: silently discarded field declarations -/

/-- Pure observer: descend a chain of object fields from an entry. -/
def entryDescend : TypeAST × FieldMetadata → List String →
    Option (TypeAST × FieldMetadata)
  | e, [] => some e
  | (ast, _), n :: rest =>
    match ast with
    | .object obj =>
      match getField obj n with
      | some e => entryDescend e rest
      | none => none
    | _ => none

/-- Is the tree an `Object` node? -/
def isObjectAST : TypeAST → Bool
  | .object _ => true
  | _ => false

/-- The statements of the C7 counterexample: table `user`, field `name` of
type string, then `name.first` — whose terminal parent `name` is a scalar. -/
def c7Stmts : List Statement :=
  [.define (.table ⟨"user", .dflt⟩),
   .define (.field ⟨"user", [.field "name"], some .string, .dflt⟩),
   .define (.field ⟨"user", [.field "name", .field "first"], some .string, .dflt⟩)]

/-- Counterexample to C7 as stated: compiling a schema in which the field
declaration `name.first` addresses a terminal parent (`name`) that is not an
object SUCCEEDS — it does not fail with `MissingParentObject` — and the
declaration leaves no trace in the result: `user` still has the single field
`name : Scalar(String)`.  The declaration is silently discarded. -/
theorem c7_counterexample :
    analyze_schema c7Stmts =
      .ok (.object [("user",
        .object [("name", .scalar .string, ⟨"name", ["user", "name"], .dflt⟩)],
        ⟨"user", ["user"], .dflt⟩)]) := by rfl

/-- When the walk of a field path reaches its terminal segment's parent
through existing entries and that parent is not an object, `applyFieldParts`
returns the entry unchanged (the original's terminal insert has no `else`
branch). -/
theorem applyFieldParts_silent (fd : DefineFieldStatement) :
    ∀ (ns : List String) (fname : String) (path : List String)
      (entry : TypeAST × FieldMetadata) (t' : TypeAST) (m' : FieldMetadata),
    canonicalT entry.1 = true →
    entryDescend entry ns = some (t', m') →
    isObjectAST t' = false →
    applyFieldParts fd path (ns.map Part.field ++ [Part.field fname]) entry = .ok entry
  | [], fname, path, (ast, meta), t', m', hc, hd, hno => by
    have hast : ast = t' := by
      simpa [entryDescend] using congrArg (Option.map Prod.fst) hd
    subst hast
    cases ast with
    | object obj => simp [isObjectAST] at hno
    | scalar s => rfl
    | array e l => rfl
    | option' i => rfl
    | record t => rfl
    | union vs => rfl
  | n :: ns', fname, path, (ast, meta), t', m', hc, hd, hno => by
    cases ast with
    | object obj =>
      cases hg : getField obj n with
      | none => simp [entryDescend, hg] at hd
      | some e =>
        have hd' : entryDescend e ns' = some (t', m') := by
          simpa [entryDescend, hg] using hd
        have hcfs : canonicalFs obj = true := by simpa [canonicalT] using hc
        have hce : canonicalT e.1 = true := by
          obtain ⟨ea, em⟩ := e
          exact canonicalFs_get obj n ea em hcfs hg
        obtain ⟨q, qs, hqs⟩ : ∃ q qs, ns'.map Part.field ++ [Part.field fname] = q :: qs := by
          cases ns' with
          | nil => exact ⟨_, _, rfl⟩
          | cons z zs => exact ⟨_, _, rfl⟩
        have ih := applyFieldParts_silent fd ns' fname (path ++ [n]) e t' m' hce hd' hno
        rw [hqs] at ih
        simp only [List.map_cons, List.cons_append, applyFieldParts, hqs, hg,
          Option.getD_some, ih, exceptBindOk]
        rw [insertField_self_of_get obj n e hcfs hg]
    | scalar s => simp [entryDescend] at hd
    | array e l => simp [entryDescend] at hd
    | option' i => simp [entryDescend] at hd
    | record t => simp [entryDescend] at hd
    | union vs => simp [entryDescend] at hd

/-- C7 (amended): schema compilation does not always fail on a field
declaration whose terminal segment's parent is not an object — when the walk
to the terminal segment goes through existing entries and lands on a
non-object parent, the declaration is SILENTLY IGNORED: compilation returns
the schema unchanged.  (`MissingParentObject` is raised only when a
non-terminal segment resolves to a non-object.) -/
theorem c7_amended_silent_discard (fd : DefineFieldStatement)
    (rootFields : List (String × TypeAST × FieldMetadata))
    (tAst : TypeAST) (tMeta : FieldMetadata) (ns : List String) (fname : String)
    (t' : TypeAST) (m' : FieldMetadata)
    (hcanon : canonicalFs rootFields = true)
    (htable : getField rootFields (sLower fd.what) = some (tAst, tMeta))
    (hname : fd.name = ns.map Part.field ++ [Part.field fname])
    (hdesc : entryDescend (tAst, tMeta) ns = some (t', m'))
    (hnotobj : isObjectAST t' = false) :
    apply_field_definition fd (.object rootFields) = .ok (.object rootFields) := by
  have hct : canonicalT tAst = true := canonicalFs_get rootFields (sLower fd.what) tAst tMeta hcanon htable
  have hw := applyFieldParts_silent fd ns fname [sLower fd.what] (tAst, tMeta) t' m'
    hct hdesc hnotobj
  simp only [apply_field_definition, htable, hname, hw, exceptBindOk]
  rw [insertField_self_of_get rootFields (sLower fd.what) (tAst, tMeta) hcanon htable]

/-- Witness for the amended C7: the declaration `user.name.first` over a
schema where `user.name` is a scalar string compiles to the unchanged
schema. -/
theorem c7_witness :
    apply_field_definition ⟨"user", [.field "name", .field "first"], some .string, .dflt⟩
      (.object [("user",
        .object [("name", .scalar .string, ⟨"name", ["user", "name"], .dflt⟩)],
        ⟨"user", ["user"], .dflt⟩)])
    = .ok (.object [("user",
        .object [("name", .scalar .string, ⟨"name", ["user", "name"], .dflt⟩)],
        ⟨"user", ["user"], .dflt⟩)]) :=
  c7_amended_silent_discard
    ⟨"user", [.field "name", .field "first"], some .string, .dflt⟩
    [("user", .object [("name", .scalar .string, ⟨"name", ["user", "name"], .dflt⟩)],
      ⟨"user", ["user"], .dflt⟩)]
    (.object [("name", .scalar .string, ⟨"name", ["user", "name"], .dflt⟩)])
    ⟨"user", ["user"], .dflt⟩ ["name"] "first" (.scalar .string)
    ⟨"name", ["user", "name"], .dflt⟩
    (by rfl) (by rfl) (by rfl) (by rfl) (by rfl)

/-! ### C2: FETCH record-link expansion -/

mutual

/-- Spec-worded record replacement (amended): replace every `RecordRef(table)`
reachable OUTSIDE an `Optional` wrapper with the table's `Object` from the
schema (error when the table is absent); subtrees under `Optional` are left
untouched, as are records introduced by the replacement itself. -/
def replaceRecordsSpec (schemaFields : List (String × TypeAST × FieldMetadata)) :
    TypeAST → Except AstError TypeAST
  | .scalar s => .ok (.scalar s)
  | .object fs => do .ok (.object (← replaceRecordsSpecFields schemaFields fs))
  | .array elem len => do .ok (.array (← replaceRecordsSpec schemaFields elem) len)
  | .option' inner => .ok (.option' inner)
  | .record tableName =>
    match getField schemaFields tableName with
    | some (a, _) => .ok a
    | none => .error (.unknownField tableName)
  | .union vs => do .ok (.union (← replaceRecordsSpecList schemaFields vs))

def replaceRecordsSpecFields (schemaFields : List (String × TypeAST × FieldMetadata)) :
    List (String × TypeAST × FieldMetadata) →
    Except AstError (List (String × TypeAST × FieldMetadata))
  | [] => .ok []
  | (n, a, m) :: rest => do
    .ok ((n, ← replaceRecordsSpec schemaFields a, m) ::
      (← replaceRecordsSpecFields schemaFields rest))

def replaceRecordsSpecList (schemaFields : List (String × TypeAST × FieldMetadata)) :
    List TypeAST → Except AstError (List TypeAST)
  | [] => .ok []
  | a :: rest => do
    .ok ((← replaceRecordsSpec schemaFields a) ::
      (← replaceRecordsSpecList schemaFields rest))

end

mutual

/-- The source's `replace_record_links` on an `Object` schema coincides with
the spec-worded outside-`Optional` replacement. -/
theorem replace_record_links_eq_spec (sfs : List (String × TypeAST × FieldMetadata)) :
    ∀ t : TypeAST, replace_record_links (.object sfs) t = replaceRecordsSpec sfs t
  | .scalar s => rfl
  | .object fs => by
    simp only [replace_record_links, replaceRecordsSpec,
      replaceRecordLinksFields_eq_spec sfs fs]
  | .array elem len => by
    simp only [replace_record_links, replaceRecordsSpec,
      replace_record_links_eq_spec sfs elem]
  | .option' inner => rfl
  | .record tableName => rfl
  | .union vs => by
    simp only [replace_record_links, replaceRecordsSpec,
      replaceRecordLinksList_eq_spec sfs vs]

theorem replaceRecordLinksFields_eq_spec (sfs : List (String × TypeAST × FieldMetadata)) :
    ∀ fs : List (String × TypeAST × FieldMetadata),
      replaceRecordLinksFields (.object sfs) fs = replaceRecordsSpecFields sfs fs
  | [] => rfl
  | (n, a, m) :: rest => by
    simp only [replaceRecordLinksFields, replaceRecordsSpecFields,
      replace_record_links_eq_spec sfs a, replaceRecordLinksFields_eq_spec sfs rest]

theorem replaceRecordLinksList_eq_spec (sfs : List (String × TypeAST × FieldMetadata)) :
    ∀ vs : List TypeAST,
      replaceRecordLinksList (.object sfs) vs = replaceRecordsSpecList sfs vs
  | [] => rfl
  | a :: rest => by
    simp only [replaceRecordLinksList, replaceRecordsSpecList,
      replace_record_links_eq_spec sfs a, replaceRecordLinksList_eq_spec sfs rest]

end

/-- C2 (amended): a fetch item whose idiom resolves (against the current
result) to a `RecordRef` or an `Array` of `RecordRef` rewrites the WHOLE
current result by replacing every `RecordRef(table)` reachable outside an
`Optional` wrapper with that table's full `Object` type from the schema
(failing if the table is absent); `RecordRef`s nested under `Optional` — and
records introduced by the replacement itself — are NOT replaced.  With
several fetch items the rewrite repeats, each item resolved against the
successively rewritten result. -/
theorem c2_amended_fetch_replaces_outside_optional
    (sfs : List (String × TypeAST × FieldMetadata)) (P : TypeAST)
    (item : List Part) (ft : TypeAST)
    (hres : resolve_idiom P item = .ok ft)
    (hrec : isFetchRecordish ft = true) :
    fetch_step (.object sfs) P item =
      (replaceRecordsSpec sfs P).mapError AnalyzeSelectError.astError := by
  unfold fetch_step
  rw [hres]
  have hrepl := replace_record_links_eq_spec sfs P
  cases ft with
  | record t =>
    simp only [hrepl]
    rfl
  | array elem len =>
    cases elem with
    | record t =>
      simp only [hrepl]
      rfl
    | scalar s => simp [isFetchRecordish] at hrec
    | object fs => simp [isFetchRecordish] at hrec
    | array e2 l2 => simp [isFetchRecordish] at hrec
    | option' i => simp [isFetchRecordish] at hrec
    | union vs => simp [isFetchRecordish] at hrec
  | scalar s => simp [isFetchRecordish] at hrec
  | object fs => simp [isFetchRecordish] at hrec
  | option' i => simp [isFetchRecordish] at hrec
  | union vs => simp [isFetchRecordish] at hrec

/-- Schema statements of the C2 counterexample. -/
def c2Stmts : List Statement :=
  [.define (.table ⟨"tag2", .dflt⟩),
   .define (.field ⟨"tag2", [.field "name"], some .string, .dflt⟩),
   .define (.table ⟨"user2", .dflt⟩),
   .define (.field ⟨"user2", [.field "friend"], some (.record "tag2" []), .dflt⟩),
   .define (.field ⟨"user2", [.field "maybe"], some (.option (.record "tag2" [])), .dflt⟩)]

/-- `tag2`'s compiled field list. -/
def c2Tag2Fields : List (String × TypeAST × FieldMetadata) :=
  [("name", .scalar .string, ⟨"name", ["tag2", "name"], .dflt⟩)]

/-- `user2`'s compiled field list: a bare record link and an optional one. -/
def c2User2Fields : List (String × TypeAST × FieldMetadata) :=
  [("friend", .record "tag2", ⟨"friend", ["user2", "friend"], .dflt⟩),
   ("maybe", .option' (.record "tag2"), ⟨"maybe", ["user2", "maybe"], .dflt⟩)]

/-- The compiled C2 schema. -/
def c2SchemaAST : TypeAST :=
  .object [("tag2", .object c2Tag2Fields, ⟨"tag2", ["tag2"], .dflt⟩),
           ("user2", .object c2User2Fields, ⟨"user2", ["user2"], .dflt⟩)]

/-- `SELECT * FROM user2 FETCH friend`. -/
def c2Stmt : SelectStatement :=
  ⟨[.all], false, none, [.table "user2"], some [[.field "friend"]], false⟩

/-- The projected result of `SELECT * FROM user2` before FETCH. -/
def c2Projected : TypeAST :=
  .object [("friend", .record "tag2", ⟨"friend", ["user2", "user2", "friend"], .dflt⟩),
           ("maybe", .option' (.record "tag2"), ⟨"maybe", ["user2", "user2", "maybe"], .dflt⟩)]

/-- Counterexample to C2 as stated: over the compiled schema, the single fetch
path `friend` resolves against the projected result to `RecordRef(tag2)` — the
claim's premise holds — yet in the returned type the `RecordRef(tag2)`
reachable under the `Optional` field `maybe` is NOT replaced by `tag2`'s
`Object` type: it survives as `Optional(RecordRef(tag2))`. -/
theorem c2_counterexample :
    analyze_schema c2Stmts = .ok c2SchemaAST
    ∧ apply_field_selection c2SchemaAST (.object c2User2Fields) [.all] none
        = .ok c2Projected
    ∧ resolve_idiom c2Projected [.field "friend"] = .ok (.record "tag2")
    ∧ analyze_select c2SchemaAST c2Stmt
        = .ok (.array (.object
            [("friend", .object c2Tag2Fields, ⟨"friend", ["user2", "user2", "friend"], .dflt⟩),
             ("maybe", .option' (.record "tag2"), ⟨"maybe", ["user2", "user2", "maybe"], .dflt⟩)])
            none)
    ∧ TypeAST.option' (.record "tag2") ≠ TypeAST.option' (.object c2Tag2Fields) := by
  refine ⟨by rfl, by rfl, by rfl, by rfl, ?_⟩
  intro h
  have := congrArg
    (fun t => match t with
      | TypeAST.option' (.record _) => true
      | _ => false) h
  simp at this

/-- Witness for the amended C2 at the concrete projected result of the
counterexample schema. -/
theorem c2_witness :
    fetch_step (.object
        [("tag2", .object c2Tag2Fields, ⟨"tag2", ["tag2"], .dflt⟩),
         ("user2", .object c2User2Fields, ⟨"user2", ["user2"], .dflt⟩)])
      c2Projected [.field "friend"] =
      (replaceRecordsSpec
        [("tag2", .object c2Tag2Fields, ⟨"tag2", ["tag2"], .dflt⟩),
         ("user2", .object c2User2Fields, ⟨"user2", ["user2"], .dflt⟩)]
        c2Projected).mapError AnalyzeSelectError.astError :=
  c2_amended_fetch_replaces_outside_optional _ c2Projected [.field "friend"]
    (.record "tag2") (by rfl) (by rfl)

/-! ### C5: permutation invariance of schema compilation

The development below proves that, for well-formed input (tables declared,
field paths pairwise distinct, every non-terminal path segment declared with
object kind and every wildcard parent declared with array kind), compiling a
schema is invariant under permutations of its field declarations.  It also
exhibits the counterexample forcing the distinct-paths amendment. -/

/-- The ast reached by a chain of object-field lookups. -/
def astAtPath : TypeAST → List String → Option TypeAST
  | t, [] => some t
  | .object fs, n :: rest =>
    (match getField fs n with
     | some (a, _) => astAtPath a rest
     | none => none)
  | _, _ => none

/-- Is the tree an `Array` node? -/
def isArrayAST : TypeAST → Bool
  | .array _ _ => true
  | _ => false

/-- The node at `p` exists and has the required shape (`true` = array,
`false` = object). -/
def MatAt (t : TypeAST) (p : List String) (isArr : Bool) : Prop :=
  ∃ u, astAtPath t p = some u ∧ (if isArr then isArrayAST u else isObjectAST u) = true

/-- The parts list of a field path given by its segment names and a
wildcard flag. -/
def partsOf (ns : List String) (w : Bool) : List Part :=
  ns.map Part.field ++ (if w then [Part.all] else [])

/-- The shape conditions a declaration with path `(ns, w)` reads before
writing: every proper non-empty prefix must be an object, and for a wildcard
the full path must be an array. -/
def readConds : List String → Bool → List (List String × Bool)
  | [], w => if w then [([], true)] else []
  | [n], w => if w then [([n], true)] else []
  | n :: m :: rest, w =>
    ([n], false) :: (readConds (m :: rest) w).map (fun c => (n :: c.1, c.2))

/-- Path depth of a field declaration. -/
def depthOf (fd : DefineFieldStatement) : Nat := fd.name.length

/-- The identifying key of a field declaration: owning table (lowercased, as
looked up) and path. -/
def fdKey (fd : DefineFieldStatement) : String × List Part :=
  (sLower fd.what, fd.name)

/-- All shape conditions of a path hold at a tree. -/
def MatSuffix (t : TypeAST) (ns : List String) (w : Bool) : Prop :=
  ∀ c ∈ readConds ns w, MatAt t c.1 c.2

theorem astAtPath_append (t : TypeAST) (p q : List String) :
    astAtPath t (p ++ q) = (astAtPath t p).bind (fun u => astAtPath u q) := by
  induction p generalizing t with
  | nil => simp [astAtPath]
  | cons n rest ih =>
    cases t with
    | object fs =>
      simp only [List.cons_append, astAtPath]
      cases getField fs n with
      | some e => exact ih e.1
      | none => simp
    | scalar s => simp [astAtPath]
    | array e l => simp [astAtPath]
    | option' i => simp [astAtPath]
    | record r => simp [astAtPath]
    | union vs => simp [astAtPath]

/-- A node from which a non-empty path descends is an object. -/
theorem astAtPath_cons_isObject (t : TypeAST) (n : String) (q : List String)
    (u : TypeAST) (h : astAtPath t (n :: q) = some u) : isObjectAST t = true := by
  cases t <;> simp_all [astAtPath, isObjectAST]

/-- No node is both an array and an object. -/
theorem MatAt_not_both {t : TypeAST} {p : List String}
    (h₁ : MatAt t p true) (h₂ : MatAt t p false) : False := by
  obtain ⟨u, hu, hua⟩ := h₁
  obtain ⟨v, hv, hvo⟩ := h₂
  rw [hu] at hv
  obtain rfl : u = v := by simpa using hv
  cases u <;> simp_all [isArrayAST, isObjectAST]

/-- Nothing descends through an array node. -/
theorem MatAt_array_no_extension {t : TypeAST} {p q : List String}
    (h₁ : MatAt t p true) (hq : q ≠ []) {u : TypeAST}
    (h₂ : astAtPath t (p ++ q) = some u) : False := by
  obtain ⟨a, ha, haa⟩ := h₁
  rw [astAtPath_append, ha] at h₂
  cases q with
  | nil => exact hq rfl
  | cons n q' =>
    have := astAtPath_cons_isObject a n q' u (by simpa using h₂)
    cases a <;> simp_all [isArrayAST, isObjectAST]

/-! Unconditional lemmas about the canonical map operations. -/

theorem getField_insertField_self : ∀ (fs : List (String × TypeAST × FieldMetadata))
    (k : String) (v : TypeAST × FieldMetadata),
    getField (insertField fs k v) k = some v
  | [], k, v => by simp [insertField, getField]
  | (k₁, a, m) :: rest, k, v => by
    by_cases hlt : sLt k k₁ = true
    · simp [insertField, hlt, getField]
    · by_cases heq : k = k₁
      · subst heq
        simp [insertField, hlt, sLt_irrefl, getField]
      · simp only [insertField, hlt, Bool.false_eq_true, if_false, if_neg heq]
        simp [getField, Ne.symm heq, getField_insertField_self rest k v]

theorem getField_insertField_ne : ∀ (fs : List (String × TypeAST × FieldMetadata))
    (k k' : String) (v : TypeAST × FieldMetadata), k ≠ k' →
    getField (insertField fs k v) k' = getField fs k'
  | [], k, k', v, h => by simp [insertField, getField, h]
  | (k₁, a, m) :: rest, k, k', v, h => by
    by_cases hlt : sLt k k₁ = true
    · simp [insertField, hlt, getField, h]
    · by_cases heq : k = k₁
      · subst heq
        simp [insertField, hlt, getField, h]
      · simp only [insertField, hlt, Bool.false_eq_true, if_false, if_neg heq]
        by_cases h₁ : k₁ = k'
        · simp [getField, h₁]
        · simp [getField, h₁, getField_insertField_ne rest k k' v h]

theorem insertField_insertField_same : ∀ (fs : List (String × TypeAST × FieldMetadata))
    (k : String) (v w : TypeAST × FieldMetadata),
    insertField (insertField fs k v) k w = insertField fs k w
  | [], k, v, w => by simp [insertField, sLt_irrefl]
  | (k₁, a, m) :: rest, k, v, w => by
    by_cases hlt : sLt k k₁ = true
    · simp [insertField, hlt, sLt_irrefl]
    · by_cases heq : k = k₁
      · simp [insertField, hlt, heq, sLt_irrefl]
      · simp only [insertField, hlt, Bool.false_eq_true, if_false, if_neg heq]
        simp [insertField, hlt, if_neg heq,
          insertField_insertField_same rest k v w]

theorem insertField_comm : ∀ (fs : List (String × TypeAST × FieldMetadata))
    (k₁ k₂ : String) (v₁ v₂ : TypeAST × FieldMetadata), k₁ ≠ k₂ →
    insertField (insertField fs k₁ v₁) k₂ v₂ =
      insertField (insertField fs k₂ v₂) k₁ v₁
  | [], k₁, k₂, v₁, v₂, hne => by
    by_cases h₁₂ : sLt k₁ k₂ = true
    · have h₂₁ : sLt k₂ k₁ = false := sLt_asymm h₁₂
      simp [insertField, h₁₂, h₂₁, hne, Ne.symm hne]
    · have h₂₁ : sLt k₂ k₁ = true := sLt_total hne (by simpa using h₁₂)
      simp [insertField, h₁₂, h₂₁, hne, Ne.symm hne]
  | (k, a, m) :: rest, k₁, k₂, v₁, v₂, hne => by
    by_cases hl₁ : sLt k₁ k = true
    · by_cases hl₂ : sLt k₂ k = true
      · by_cases h₁₂ : sLt k₁ k₂ = true
        · have h₂₁ : sLt k₂ k₁ = false := sLt_asymm h₁₂
          simp [insertField, hl₁, hl₂, h₁₂, h₂₁, hne, Ne.symm hne]
        · have h₂₁ : sLt k₂ k₁ = true := sLt_total hne (by simpa using h₁₂)
          simp [insertField, hl₁, hl₂, h₁₂, h₂₁, hne, Ne.symm hne]
      · by_cases he₂ : k₂ = k
        · subst he₂
          simp [insertField, hl₁, hl₂, hne, Ne.symm hne, sLt_asymm hl₁]
        · simp only [insertField, hl₁, if_pos rfl, hl₂, Bool.false_eq_true,
            if_false, if_neg he₂]
          have h₂₁ : sLt k₂ k₁ = false := by
            cases h : sLt k₂ k₁ with
            | false => rfl
            | true => exact absurd (sLt_trans h hl₁) (by simp [hl₂])
          have hne₂₁ : k₂ ≠ k₁ := Ne.symm hne
          simp [insertField, hl₁, h₂₁, hne₂₁, hl₂, if_neg he₂]
    · by_cases he₁ : k₁ = k
      · subst he₁
        by_cases hl₂ : sLt k₂ k₁ = true
        · simp [insertField, hl₁, hl₂, hne, Ne.symm hne, sLt_asymm hl₂]
        · by_cases he₂ : k₂ = k₁
          · exact absurd he₂.symm hne
          · simp only [insertField, hl₁, Bool.false_eq_true, if_false, if_pos rfl,
              hl₂, if_neg he₂]
            simp [insertField, hl₁, hl₂, if_neg he₂, Ne.symm hne]
      · by_cases hl₂ : sLt k₂ k = true
        · by_cases he₂ : k₂ = k
          · rw [he₂] at hl₂
            exact absurd hl₂ (by simp [sLt_irrefl])
          · have h₁₂ : sLt k₁ k₂ = false := by
              cases h : sLt k₁ k₂ with
              | false => rfl
              | true => exact absurd (sLt_trans h hl₂) (by simp [hl₁])
            simp only [insertField, hl₁, Bool.false_eq_true, if_false, if_neg he₁,
              hl₂, if_pos rfl]
            simp [insertField, hl₂, h₁₂, hne, hl₁, if_neg he₁]
        · by_cases he₂ : k₂ = k
          · subst he₂
            simp only [insertField, hl₁, Bool.false_eq_true, if_false, if_neg he₁,
              hl₂, if_pos rfl]
            simp [insertField, hl₁, if_neg he₁, hl₂, sLt_irrefl]
          · simp only [insertField, hl₁, Bool.false_eq_true, if_false, if_neg he₁,
              hl₂, if_neg he₂]
            simp [insertField, hl₁, if_neg he₁, hl₂, if_neg he₂,
              insertField_comm rest k₁ k₂ v₁ v₂ hne]

/-! Helper lemmas for the apply-effect analysis. -/

theorem astAtPath_object_cons (obj : List (String × TypeAST × FieldMetadata))
    (n : String) (p : List String) :
    astAtPath (.object obj) (n :: p) =
      (match getField obj n with
       | some (a, _) => astAtPath a p
       | none => none) := rfl

theorem MatAt_iff_of_eq {t₁ t₂ : TypeAST} {p : List String}
    (h : astAtPath t₁ p = astAtPath t₂ p) (b : Bool) :
    MatAt t₁ p b ↔ MatAt t₂ p b := by
  unfold MatAt
  rw [h]

theorem MatAt_nil (t : TypeAST) (b : Bool) :
    MatAt t [] b ↔ (if b then isArrayAST t else isObjectAST t) = true := by
  simp [MatAt, astAtPath]

theorem MatAt_object_cons {obj : List (String × TypeAST × FieldMetadata)}
    {n : String} {a : TypeAST} {m : FieldMetadata}
    (hg : getField obj n = some (a, m)) (p : List String) (b : Bool) :
    MatAt (.object obj) (n :: p) b ↔ MatAt a p b := by
  unfold MatAt
  rw [astAtPath_object_cons, hg]

/-- A shape condition of the tail transfers from the whole path. -/
theorem MatSuffix_child {obj : List (String × TypeAST × FieldMetadata)}
    {n : String} {childAst : TypeAST} {childMeta : FieldMetadata}
    {ns : List String} {w : Bool}
    (hms : MatSuffix (.object obj) (n :: ns) w)
    (hg : getField obj n = some (childAst, childMeta)) :
    MatSuffix childAst ns w := by
  intro c hc
  have hmem : ((n :: c.1, c.2) : List String × Bool) ∈ readConds (n :: ns) w := by
    cases ns with
    | nil =>
      cases w with
      | true =>
        simp [readConds] at hc
        simp [readConds, hc]
      | false => simp [readConds] at hc
    | cons m rest =>
      simp only [readConds, List.mem_cons, List.mem_map]
      exact Or.inr ⟨c, hc, rfl⟩
  have := hms _ hmem
  exact (MatAt_object_cons hg c.1 c.2).mp this

/-- No path descends into a freshly inserted field value. -/
theorem astAtPath_kindToTypeAST (k : Kind) (n : String) (p : List String)
    (u : TypeAST) : astAtPath (kindToTypeAST k) (n :: p) = some u → False := by
  cases k <;> simp [kindToTypeAST, astAtPath, getField]

theorem astAtPath_newFieldAst (fd : DefineFieldStatement) (n : String)
    (p : List String) (u : TypeAST) :
    astAtPath (newFieldAst fd) (n :: p) = some u → False := by
  unfold newFieldAst
  by_cases h : isArrayKind fd = true
  · simp [h, astAtPath]
  · simp only [h, Bool.false_eq_true, if_false]
    unfold fieldType
    cases hk : fd.kind with
    | none => simp [astAtPath]
    | some k => exact astAtPath_kindToTypeAST k n p u

theorem partsOf_cons (n : String) (ns : List String) (w : Bool) :
    partsOf (n :: ns) w = Part.field n :: partsOf ns w := by
  simp [partsOf]

theorem partsOf_ne_nil {ns : List String} {w : Bool} (h : ns ≠ [] ∨ w = true) :
    ∃ q qs, partsOf ns w = q :: qs := by
  cases ns with
  | nil =>
    cases w with
    | true => exact ⟨_, _, rfl⟩
    | false => simp at h
  | cons n rest => exact ⟨Part.field n, partsOf rest w, partsOf_cons n rest w⟩

/-- Recover the segment names and the wildcard flag from a raw parts list:
`pathShape parts = some (ns, w)` iff `parts` is a chain of `Part.field`
segments optionally closed by a single `Part.all`.  Any other shape hits one
of the `Unknown`-error arms of `apply_field_definition`. -/
def pathShape : List Part → Option (List String × Bool)
  | [] => none
  | [.field n] => some ([n], false)
  | [.all] => some ([], true)
  | .field n :: p :: rest =>
    (match pathShape (p :: rest) with
     | some (ns, w) => some (n :: ns, w)
     | none => none)
  | .all :: _ :: _ => none
  | .graph _ _ :: _ => none
  | .other :: _ => none

theorem pathShape_partsOf : ∀ (ns : List String) (w : Bool),
    (ns ≠ [] ∨ w = true) → pathShape (partsOf ns w) = some (ns, w)
  | [], w, h => by
    cases w with
    | true => rfl
    | false => simp at h
  | [n], w, h => by
    cases w with
    | true => rfl
    | false => rfl
  | n :: m :: rest, w, h => by
    have ih := pathShape_partsOf (m :: rest) w (Or.inl (List.cons_ne_nil m rest))
    rw [partsOf_cons]
    obtain ⟨q, qs, hq⟩ := partsOf_ne_nil (Or.inl (List.cons_ne_nil m rest) :
      m :: rest ≠ [] ∨ w = true)
    rw [hq]
    simp only [pathShape]
    rw [← hq, ih]

theorem pathShape_eq : ∀ (parts : List Part) (ns : List String) (w : Bool),
    pathShape parts = some (ns, w) → parts = partsOf ns w
  | [], ns, w => by simp [pathShape]
  | [.field n], ns, w => by
    intro h
    simp only [pathShape, Option.some.injEq] at h
    cases h
    rfl
  | [.all], ns, w => by
    intro h
    simp only [pathShape, Option.some.injEq] at h
    cases h
    rfl
  | .field n :: p :: rest, ns, w => by
    intro h
    simp only [pathShape] at h
    cases hrec : pathShape (p :: rest) with
    | none => rw [hrec] at h; simp at h
    | some pr =>
      obtain ⟨ns', w'⟩ := pr
      rw [hrec] at h
      simp only [Option.some.injEq] at h
      have := pathShape_eq (p :: rest) ns' w' hrec
      cases h
      rw [partsOf_cons, ← this]
  | .all :: q :: rest, ns, w => by simp [pathShape]
  | .graph d e :: rest, ns, w => by simp [pathShape]
  | .other :: rest, ns, w => by simp [pathShape]

theorem partsOf_length (ns : List String) (w : Bool) :
    (partsOf ns w).length = ns.length + (if w then 1 else 0) := by
  cases w <;> simp [partsOf]

theorem partsOf_inj {ns₁ : List String} {w₁ : Bool} {ns₂ : List String} {w₂ : Bool}
    (h₁ : ns₁ ≠ [] ∨ w₁ = true) (h : partsOf ns₁ w₁ = partsOf ns₂ w₂) :
    ns₁ = ns₂ ∧ w₁ = w₂ := by
  have e₁ := pathShape_partsOf ns₁ w₁ h₁
  rw [h] at e₁
  by_cases h₂ : ns₂ ≠ [] ∨ w₂ = true
  · rw [pathShape_partsOf ns₂ w₂ h₂] at e₁
    simpa [Prod.ext_iff] using e₁.symm
  · push_neg at h₂
    obtain ⟨rfl, hw₂⟩ := h₂
    cases w₂ with
    | true => exact absurd rfl hw₂
    | false => simp [partsOf, pathShape] at e₁

/-- Every read condition of a path sits at a strictly smaller depth than the
declaration itself. -/
theorem readConds_length : ∀ (ns : List String) (w : Bool),
    ∀ c ∈ readConds ns w, c.1.length < ns.length + (if w then 1 else 0)
  | [], w => by cases w <;> simp [readConds]
  | [n], w => by cases w <;> simp [readConds]
  | n :: m :: rest, w => by
    intro c hc
    simp only [readConds, List.mem_cons, List.mem_map] at hc
    rcases hc with rfl | ⟨c', hc', rfl⟩
    · cases w <;> simp
    · have ih := readConds_length (m :: rest) w c' hc'
      simp only [List.length_cons] at ih ⊢
      omega

/-- The head read condition gives the existence and shape of the child named
by the first segment. -/
theorem MatSuffix_head_child {obj : List (String × TypeAST × FieldMetadata)}
    {n : String} {ns' : List String} {w : Bool}
    (hne' : ns' ≠ [] ∨ w = true)
    (hms : MatSuffix (.object obj) (n :: ns') w) :
    ∃ c cm, getField obj n = some (c, cm) ∧
      ((ns' ≠ [] ∧ isObjectAST c = true) ∨
       (ns' = [] ∧ w = true ∧ isArrayAST c = true)) := by
  cases ns' with
  | nil =>
    have hw : w = true := by
      rcases hne' with h | h
      · exact absurd rfl h
      · exact h
    subst hw
    have hm : MatAt (.object obj) [n] true := hms ([n], true) (by simp [readConds])
    obtain ⟨u, hu, hua⟩ := hm
    rw [astAtPath_object_cons] at hu
    cases hg : getField obj n with
    | none => rw [hg] at hu; simp at hu
    | some e =>
      obtain ⟨a, m⟩ := e
      rw [hg] at hu
      obtain rfl : a = u := by simpa [astAtPath] using hu
      exact ⟨a, m, rfl, Or.inr ⟨rfl, rfl, by simpa using hua⟩⟩
  | cons m rest =>
    have hm : MatAt (.object obj) [n] false := hms ([n], false) (by simp [readConds])
    obtain ⟨u, hu, huo⟩ := hm
    rw [astAtPath_object_cons] at hu
    cases hg : getField obj n with
    | none => rw [hg] at hu; simp at hu
    | some e =>
      obtain ⟨a, m'⟩ := e
      rw [hg] at hu
      obtain rfl : a = u := by simpa [astAtPath] using hu
      exact ⟨a, m', rfl, Or.inl ⟨by simp, by simpa using huo⟩⟩

/-- The combined success-and-effect characterization of the path walk
`applyFieldParts` for a well-shaped path whose read conditions hold:
the walk succeeds without changing the entry's metadata; shapes at paths not
extending the written path are preserved; a field-terminal write places
`newFieldAst` at the path; a wildcard write replaces the element of the array
at the path keeping its length; and no path outside the written one springs
into existence. -/
theorem applyFieldParts_effect (fd : DefineFieldStatement) :
    ∀ (ns : List String) (w : Bool) (path : List String) (ast : TypeAST)
      (meta : FieldMetadata),
    (ns ≠ [] ∨ w = true) →
    (isObjectAST ast = true ∨ (ns = [] ∧ w = true)) →
    MatSuffix ast ns w →
    ∃ ast', applyFieldParts fd path (partsOf ns w) (ast, meta) = .ok (ast', meta)
      ∧ (∀ p b, ¬ ns <+: p → (MatAt ast' p b ↔ MatAt ast p b))
      ∧ (w = false → astAtPath ast' ns = some (newFieldAst fd))
      ∧ (∀ e l, w = true → astAtPath ast ns = some (.array e l) →
          astAtPath ast' ns = some (.array (fieldType fd) l))
      ∧ (∀ p u, astAtPath ast' p = some u → astAtPath ast p ≠ none ∨ p = ns)
  | [], w, path, ast, meta => by
    intro hne hroot hms
    have hw : w = true := by
      rcases hne with h | h
      · exact absurd rfl h
      · exact h
    subst hw
    have harr : MatAt ast [] true := hms ([], true) (by simp [readConds])
    rw [MatAt_nil] at harr
    cases ast with
    | array e l =>
      refine ⟨.array (fieldType fd) l, ?_, ?_, ?_, ?_, ?_⟩
      · simp [partsOf, applyFieldParts]
      · intro p b hp
        exact absurd (List.nil_prefix) hp
      · intro h; simp at h
      · intro e' l' _ h
        simp only [astAtPath] at h ⊢
        obtain ⟨rfl, rfl⟩ : e = e' ∧ l = l' := by
          have := (Option.some.injEq _ _).mp h
          exact ⟨by injection this, by injection this⟩
        rfl
      · intro p u hu
        cases p with
        | nil => exact Or.inl (by simp [astAtPath])
        | cons x xs => simp [astAtPath] at hu
    | scalar s => simp [isArrayAST] at harr
    | object fs => simp [isArrayAST] at harr
    | option' i => simp [isArrayAST] at harr
    | record t => simp [isArrayAST] at harr
    | union vs => simp [isArrayAST] at harr
  | n :: ns', w, path, ast, meta => by
    intro hne hroot hms
    have hobj : isObjectAST ast = true := by
      rcases hroot with h | ⟨h, _⟩
      · exact h
      · simp at h
    cases ast with
    | object obj =>
      by_cases hterm : ns' = [] ∧ w = false
      · -- terminal field insert
        obtain ⟨rfl, rfl⟩ := hterm
        refine ⟨.object (insertField obj n
          (newFieldAst fd, ⟨n, path ++ [n], fd.permissions⟩)), ?_, ?_, ?_, ?_, ?_⟩
        · simp [partsOf, applyFieldParts]
        · intro p b hp
          cases p with
          | nil =>
            rw [MatAt_nil, MatAt_nil]
            cases b <;> simp [isObjectAST, isArrayAST]
          | cons n' p' =>
            have hnn : n ≠ n' := by
              intro h
              exact hp (h ▸ (List.cons_prefix_cons.mpr ⟨rfl, List.nil_prefix⟩))
            apply MatAt_iff_of_eq
            rw [astAtPath_object_cons, astAtPath_object_cons,
              getField_insertField_ne obj n n' _ hnn]
        · intro _
          simp only [astAtPath_object_cons, getField_insertField_self]
          simp [astAtPath]
        · intro e l hw
          simp at hw
        · intro p u hu
          cases p with
          | nil => exact Or.inl (by simp [astAtPath])
          | cons n' p' =>
            by_cases hnn : n = n'
            · subst hnn
              rw [astAtPath_object_cons, getField_insertField_self] at hu
              cases p' with
              | nil => exact Or.inr rfl
              | cons x xs => exact absurd hu (fun h => astAtPath_newFieldAst fd x xs u h)
            · rw [astAtPath_object_cons, getField_insertField_ne obj n n' _ hnn] at hu
              refine Or.inl (fun h => ?_)
              rw [astAtPath_object_cons] at h
              rw [h] at hu
              simp at hu
      · -- non-terminal descent
        have hne' : ns' ≠ [] ∨ w = true := by
          by_cases h : ns' = []
          · cases hwv : w with
            | true => exact Or.inr rfl
            | false => exact absurd ⟨h, hwv⟩ hterm
          · exact Or.inl h
        have hchild : ∃ childAst childMeta, getField obj n = some (childAst, childMeta) ∧
            ((ns' ≠ [] ∧ isObjectAST childAst = true) ∨
             (ns' = [] ∧ w = true ∧ isArrayAST childAst = true)) := by
          cases ns' with
          | nil =>
            have hw : w = true := by
              rcases hne' with h | h
              · exact absurd rfl h
              · exact h
            subst hw
            have hm : MatAt (.object obj) [n] true :=
              hms ([n], true) (by simp [readConds])
            obtain ⟨u, hu, hua⟩ := hm
            rw [astAtPath_object_cons] at hu
            cases hg : getField obj n with
            | none => rw [hg] at hu; simp at hu
            | some e =>
              obtain ⟨a, m⟩ := e
              rw [hg] at hu
              obtain rfl : a = u := by simpa [astAtPath] using hu
              exact ⟨a, m, rfl, Or.inr ⟨rfl, rfl, by simpa using hua⟩⟩
          | cons m rest =>
            have hm : MatAt (.object obj) [n] false :=
              hms ([n], false) (by simp [readConds])
            obtain ⟨u, hu, huo⟩ := hm
            rw [astAtPath_object_cons] at hu
            cases hg : getField obj n with
            | none => rw [hg] at hu; simp at hu
            | some e =>
              obtain ⟨a, m'⟩ := e
              rw [hg] at hu
              obtain rfl : a = u := by simpa [astAtPath] using hu
              exact ⟨a, m', rfl, Or.inl ⟨by simp, by simpa using huo⟩⟩
        obtain ⟨childAst, childMeta, hg, hshape⟩ := hchild
        have hchildroot : isObjectAST childAst = true ∨ (ns' = [] ∧ w = true) := by
          rcases hshape with ⟨_, h⟩ | ⟨h1, h2, _⟩
          · exact Or.inl h
          · exact Or.inr ⟨h1, h2⟩
        have hchildms : MatSuffix childAst ns' w := MatSuffix_child hms hg
        obtain ⟨childAst', heq, hpres, hwrF, hwrT, hpaths⟩ :=
          applyFieldParts_effect fd ns' w (path ++ [n]) childAst childMeta
            hne' hchildroot hchildms
        obtain ⟨q, qs, hqs⟩ := partsOf_ne_nil hne'
        refine ⟨.object (insertField obj n (childAst', childMeta)), ?_, ?_, ?_, ?_, ?_⟩
        · rw [partsOf_cons, hqs]
          simp only [applyFieldParts, hg, Option.getD_some]
          rw [← hqs, heq]
          rfl
        · intro p b hp
          cases p with
          | nil =>
            rw [MatAt_nil, MatAt_nil]
            cases b <;> simp [isObjectAST, isArrayAST]
          | cons n' p' =>
            by_cases hnn : n = n'
            · subst hnn
              have hp' : ¬ ns' <+: p' := by
                intro h
                exact hp (List.cons_prefix_cons.mpr ⟨rfl, h⟩)
              rw [MatAt_object_cons (getField_insertField_self obj n _) p' b,
                MatAt_object_cons hg p' b]
              exact hpres p' b hp'
            · apply MatAt_iff_of_eq
              rw [astAtPath_object_cons, astAtPath_object_cons,
                getField_insertField_ne obj n n' _ hnn]
        · intro hw
          rw [astAtPath_object_cons, getField_insertField_self]
          exact hwrF hw
        · intro e l hw hbefore
          rw [astAtPath_object_cons, hg] at hbefore
          rw [astAtPath_object_cons, getField_insertField_self]
          exact hwrT e l hw hbefore
        · intro p u hu
          cases p with
          | nil => exact Or.inl (by simp [astAtPath])
          | cons n' p' =>
            by_cases hnn : n = n'
            · subst hnn
              rw [astAtPath_object_cons, getField_insertField_self] at hu
              rcases hpaths p' u hu with h | h
              · refine Or.inl ?_
                rw [astAtPath_object_cons, hg]
                exact h
              · exact Or.inr (by rw [h])
            · rw [astAtPath_object_cons, getField_insertField_ne obj n n' _ hnn] at hu
              refine Or.inl ?_
              rw [astAtPath_object_cons]
              exact fun h => by rw [h] at hu; simp at hu
    | scalar s => simp [isObjectAST] at hobj
    | array e l => simp [isObjectAST] at hobj
    | option' i => simp [isObjectAST] at hobj
    | record t => simp [isObjectAST] at hobj
    | union vs => simp [isObjectAST] at hobj

/-- A walk whose read conditions hold acts on the root object as a single
insertion at its first segment, with an inserted entry that depends only on
the pre-existing child there. -/
theorem applyFieldParts_insert_shape (fd : DefineFieldStatement) (path : List String)
    (n : String) (r : List String) (w : Bool)
    (obj : List (String × TypeAST × FieldMetadata))
    (hms : MatSuffix (.object obj) (n :: r) w) :
    ∃ e, ∀ (o : List (String × TypeAST × FieldMetadata)) (meta : FieldMetadata),
      getField o n = getField obj n →
      applyFieldParts fd path (partsOf (n :: r) w) (.object o, meta) =
        .ok (.object (insertField o n e), meta) := by
  by_cases hterm : r = [] ∧ w = false
  · obtain ⟨rfl, rfl⟩ := hterm
    exact ⟨(newFieldAst fd, ⟨n, path ++ [n], fd.permissions⟩), fun o meta _ => by
      simp [partsOf, applyFieldParts]⟩
  · have hne' : r ≠ [] ∨ w = true := by
      by_cases h : r = []
      · cases hwv : w with
        | true => exact Or.inr rfl
        | false => exact absurd ⟨h, hwv⟩ hterm
      · exact Or.inl h
    obtain ⟨c, cm, hg, hshape⟩ := MatSuffix_head_child hne' hms
    have hchildroot : isObjectAST c = true ∨ (r = [] ∧ w = true) := by
      rcases hshape with ⟨_, h⟩ | ⟨h1, h2, _⟩
      · exact Or.inl h
      · exact Or.inr ⟨h1, h2⟩
    have hchildms : MatSuffix c r w := MatSuffix_child hms hg
    obtain ⟨c', heq, -, -, -, -⟩ :=
      applyFieldParts_effect fd r w (path ++ [n]) c cm hne' hchildroot hchildms
    obtain ⟨q, qs, hqs⟩ := partsOf_ne_nil hne'
    refine ⟨(c', cm), fun o meta hgo => ?_⟩
    rw [partsOf_cons, hqs]
    simp only [applyFieldParts, hgo, hg, Option.getD_some]
    rw [← hqs, heq]
    rfl

/-- Two path walks with distinct (path, wildcard) keys and equal depth commute
when both sets of read conditions hold at the entry: the non-vacuous cases
write at incomparable paths, so either order produces the same entry. -/
theorem applyFieldParts_comm (fd₁ fd₂ : DefineFieldStatement) :
    ∀ (ns₁ : List String) (w₁ : Bool) (ns₂ : List String) (w₂ : Bool)
      (path : List String) (obj : List (String × TypeAST × FieldMetadata))
      (meta : FieldMetadata),
    MatSuffix (.object obj) ns₁ w₁ → MatSuffix (.object obj) ns₂ w₂ →
    (ns₁, w₁) ≠ (ns₂, w₂) →
    ns₁.length + (if w₁ then 1 else 0) = ns₂.length + (if w₂ then 1 else 0) →
    (applyFieldParts fd₁ path (partsOf ns₁ w₁) (.object obj, meta) >>=
        applyFieldParts fd₂ path (partsOf ns₂ w₂)) =
    (applyFieldParts fd₂ path (partsOf ns₂ w₂) (.object obj, meta) >>=
        applyFieldParts fd₁ path (partsOf ns₁ w₁))
  | [], w₁, ns₂, w₂, path, obj, meta => by
    intro hms₁ hms₂ hkey hdep
    cases w₁ with
    | true =>
      have h := hms₁ ([], true) (by simp [readConds])
      rw [MatAt_nil] at h
      simp [isArrayAST] at h
    | false =>
      cases ns₂ with
      | nil =>
        cases w₂ with
        | true => simp at hdep
        | false => exact absurd rfl hkey
      | cons m r => cases w₂ <;> simp at hdep
  | n₁ :: r₁, w₁, ns₂, w₂, path, obj, meta => by
    intro hms₁ hms₂ hkey hdep
    cases ns₂ with
    | nil =>
      cases w₂ with
      | true =>
        have h := hms₂ ([], true) (by simp [readConds])
        rw [MatAt_nil] at h
        simp [isArrayAST] at h
      | false => cases w₁ <;> simp at hdep
    | cons n₂ r₂ =>
      by_cases hnn : n₁ = n₂
      · subst hnn
        have hkey' : ((r₁ : List String), w₁) ≠ (r₂, w₂) := by
          intro h
          rw [Prod.mk.injEq] at h
          exact hkey (by rw [Prod.mk.injEq]; exact ⟨by rw [h.1], h.2⟩)
        have hdep' : r₁.length + (if w₁ then 1 else 0) =
            r₂.length + (if w₂ then 1 else 0) := by
          simp only [List.length_cons] at hdep
          omega
        cases r₁ with
        | nil =>
          cases w₁ with
          | false =>
            cases r₂ with
            | nil =>
              cases w₂ with
              | false => exact absurd rfl hkey'
              | true => simp at hdep'
            | cons m s => cases w₂ <;> simp at hdep'
          | true =>
            cases r₂ with
            | nil =>
              cases w₂ with
              | true => exact absurd rfl hkey'
              | false => simp at hdep'
            | cons m s =>
              cases s with
              | cons x xs => cases w₂ <;> simp at hdep'
              | nil =>
                cases w₂ with
                | true => simp at hdep'
                | false =>
                  have hA := hms₁ ([n₁], true) (by simp [readConds])
                  have hO := hms₂ ([n₁], false) (by simp [readConds])
                  exact (MatAt_not_both hA hO).elim
        | cons m₁ s₁ =>
          cases r₂ with
          | nil =>
            cases w₂ with
            | false => cases w₁ <;> simp at hdep'
            | true =>
              cases s₁ with
              | cons x xs => cases w₁ <;> simp at hdep'
              | nil =>
                cases w₁ with
                | true => simp at hdep'
                | false =>
                  have hO := hms₁ ([n₁], false) (by simp [readConds])
                  have hA := hms₂ ([n₁], true) (by simp [readConds])
                  exact (MatAt_not_both hA hO).elim
          | cons m₂ s₂ =>
            have hc1 : MatAt (.object obj) [n₁] false :=
              hms₁ ([n₁], false) (by simp [readConds])
            obtain ⟨u, hu, huo⟩ := hc1
            rw [astAtPath_object_cons] at hu
            cases hg : getField obj n₁ with
            | none => rw [hg] at hu; simp at hu
            | some e =>
              obtain ⟨a, cm⟩ := e
              rw [hg] at hu
              obtain rfl : a = u := by simpa [astAtPath] using hu
              cases a with
              | object cobj =>
                have hmsc₁ : MatSuffix (.object cobj) (m₁ :: s₁) w₁ :=
                  MatSuffix_child hms₁ hg
                have hmsc₂ : MatSuffix (.object cobj) (m₂ :: s₂) w₂ :=
                  MatSuffix_child hms₂ hg
                have IH := applyFieldParts_comm fd₁ fd₂ (m₁ :: s₁) w₁ (m₂ :: s₂) w₂
                  (path ++ [n₁]) cobj cm hmsc₁ hmsc₂ hkey' hdep'
                obtain ⟨c₁, hok₁, -, -, -, -⟩ := applyFieldParts_effect fd₁ (m₁ :: s₁) w₁
                  (path ++ [n₁]) (.object cobj) cm (Or.inl (List.cons_ne_nil m₁ s₁))
                  (Or.inl rfl) hmsc₁
                obtain ⟨c₂, hok₂, -, -, -, -⟩ := applyFieldParts_effect fd₂ (m₂ :: s₂) w₂
                  (path ++ [n₁]) (.object cobj) cm (Or.inl (List.cons_ne_nil m₂ s₂))
                  (Or.inl rfl) hmsc₂
                obtain ⟨q₁, qs₁, hq₁⟩ := partsOf_ne_nil (Or.inl (List.cons_ne_nil m₁ s₁) :
                  m₁ :: s₁ ≠ [] ∨ w₁ = true)
                obtain ⟨q₂, qs₂, hq₂⟩ := partsOf_ne_nil (Or.inl (List.cons_ne_nil m₂ s₂) :
                  m₂ :: s₂ ≠ [] ∨ w₂ = true)
                have hroot₁ : ∀ (o : List (String × TypeAST × FieldMetadata))
                    (mt : FieldMetadata) (cc : TypeAST × FieldMetadata),
                    getField o n₁ = some cc →
                    applyFieldParts fd₁ path (partsOf (n₁ :: m₁ :: s₁) w₁) (.object o, mt) =
                      (match applyFieldParts fd₁ (path ++ [n₁]) (partsOf (m₁ :: s₁) w₁) cc with
                       | .ok uu => .ok (.object (insertField o n₁ uu), mt)
                       | .error e => .error e) := by
                  intro o mt cc hgo
                  rw [partsOf_cons, hq₁]
                  simp only [applyFieldParts, hgo, Option.getD_some]
                  rw [← hq₁]
                  cases applyFieldParts fd₁ (path ++ [n₁]) (partsOf (m₁ :: s₁) w₁) cc <;> rfl
                have hroot₂ : ∀ (o : List (String × TypeAST × FieldMetadata))
                    (mt : FieldMetadata) (cc : TypeAST × FieldMetadata),
                    getField o n₁ = some cc →
                    applyFieldParts fd₂ path (partsOf (n₁ :: m₂ :: s₂) w₂) (.object o, mt) =
                      (match applyFieldParts fd₂ (path ++ [n₁]) (partsOf (m₂ :: s₂) w₂) cc with
                       | .ok uu => .ok (.object (insertField o n₁ uu), mt)
                       | .error e => .error e) := by
                  intro o mt cc hgo
                  rw [partsOf_cons, hq₂]
                  simp only [applyFieldParts, hgo, Option.getD_some]
                  rw [← hq₂]
                  cases applyFieldParts fd₂ (path ++ [n₁]) (partsOf (m₂ :: s₂) w₂) cc <;> rfl
                rw [hok₁, hok₂] at IH
                simp only [exceptBindOk] at IH
                rw [hroot₁ obj meta (TypeAST.object cobj, cm) hg,
                    hroot₂ obj meta (TypeAST.object cobj, cm) hg]
                simp only [hok₁, hok₂]
                simp only [exceptBindOk]
                rw [hroot₂ (insertField obj n₁ (c₁, cm)) meta (c₁, cm)
                      (getField_insertField_self obj n₁ (c₁, cm)),
                    hroot₁ (insertField obj n₁ (c₂, cm)) meta (c₂, cm)
                      (getField_insertField_self obj n₁ (c₂, cm))]
                rw [IH]
                cases hT : applyFieldParts fd₁ (path ++ [n₁]) (partsOf (m₁ :: s₁) w₁) (c₂, cm) with
                | error e => rfl
                | ok uu => simp [insertField_insertField_same]
              | scalar s => simp [isObjectAST] at huo
              | array e l => simp [isObjectAST] at huo
              | option' i => simp [isObjectAST] at huo
              | record t => simp [isObjectAST] at huo
              | union vs => simp [isObjectAST] at huo
      · obtain ⟨e₁, he₁⟩ := applyFieldParts_insert_shape fd₁ path n₁ r₁ w₁ obj hms₁
        obtain ⟨e₂, he₂⟩ := applyFieldParts_insert_shape fd₂ path n₂ r₂ w₂ obj hms₂
        rw [he₁ obj meta rfl, he₂ obj meta rfl]
        simp only [exceptBindOk]
        rw [he₂ (insertField obj n₁ e₁) meta (getField_insertField_ne obj n₁ n₂ e₁ hnn),
            he₁ (insertField obj n₂ e₂) meta (getField_insertField_ne obj n₂ n₁ e₂ (Ne.symm hnn))]
        rw [insertField_comm obj n₁ n₂ e₁ e₂ hnn]

/-- Does a declaration provide, once applied, the shape a read condition
demands at its path?  (`true` demands an array, `false` an object.) -/
def coverOK (b : Bool) (fd : DefineFieldStatement) : Bool :=
  if b then isArrayAST (newFieldAst fd) else isObjectAST (newFieldAst fd)

/-- Some declaration in `L` writes exactly the path of the read condition `c`
on table `t` with the shape `c` demands. -/
def hasCover (L : List DefineFieldStatement) (t : String)
    (c : List String × Bool) : Bool :=
  L.any (fun fd => decide (sLower fd.what = t) &&
    decide (fd.name = partsOf c.1 false) && coverOK c.2 fd)

/-- Every path that exists in some table entry has length at most `d`. -/
def StateBound (d : Nat) (rootFs : List (String × TypeAST × FieldMetadata)) : Prop :=
  ∀ t e, getField rootFs t = some e → ∀ p u, astAtPath e.1 p = some u → p.length ≤ d

/-- The processing invariant of the depth-sorted field-definition fold: every
pending declaration parses to a path shape, its table entry exists and is an
object, and each of its read conditions either holds already or is covered by
a pending declaration of the demanded shape. -/
def InvA (rootFs : List (String × TypeAST × FieldMetadata))
    (L : List DefineFieldStatement) : Prop :=
  ∀ fd ∈ L, ∃ ns w, pathShape fd.name = some (ns, w) ∧
    ∃ e, getField rootFs (sLower fd.what) = some e ∧ isObjectAST e.1 = true ∧
    ∀ c ∈ readConds ns w, MatAt e.1 c.1 c.2 ∨
      hasCover L (sLower fd.what) c = true

/-- Pending terminal (non-wildcard) declarations write to paths that do not
exist yet. -/
def InvB (rootFs : List (String × TypeAST × FieldMetadata))
    (L : List DefineFieldStatement) : Prop :=
  ∀ fd ∈ L, ∀ ns, pathShape fd.name = some (ns, false) →
    ∀ e, getField rootFs (sLower fd.what) = some e → astAtPath e.1 ns = none

/-- The deferred-field fold of `analyze_schema`. -/
def foldApply (ast : TypeAST) (L : List DefineFieldStatement) :
    Except SchemaParseError TypeAST :=
  L.foldlM (fun a fd => apply_field_definition fd a) ast

/-- The deferred field definitions of a statement list, in source order. -/
def fieldDefsOf : List Statement → List DefineFieldStatement
  | [] => []
  | .define (.field fd) :: rest => fd :: fieldDefsOf rest
  | _ :: rest => fieldDefsOf rest

/-- The non-field define statements of a statement list, in source order. -/
def nonFieldDefines : List Statement → List DefineStatement
  | [] => []
  | .define (.field _) :: rest => nonFieldDefines rest
  | .define d :: rest => d :: nonFieldDefines rest
  | .other :: rest => nonFieldDefines rest

/-- Applying a run of non-field define statements in order. -/
def applyDefines (ds : List DefineStatement) (ast : TypeAST) :
    Except SchemaParseError TypeAST :=
  ds.foldlM (fun a d => apply_definition d a) ast

/-- The well-formedness that the amended ordering-invariance claim assumes:
the table and other non-field definitions compile, every field declaration
has a plain field path (optionally wildcard-terminated) over a declared table
entry, the (table, path) keys are pairwise distinct, and every read condition
of every declaration is covered by a declaration of the demanded shape
(object-typed parents for every proper prefix, an array-typed declaration
under every wildcard). -/
def wellFormedSchema (stmts : List Statement) : Bool :=
  match partitionApply stmts (.object []) with
  | .error _ => false
  | .ok (fds, ast) =>
    match ast with
    | .object rootFs =>
      decide (List.Nodup (fds.map fdKey)) &&
      fds.all (fun fd =>
        (match getField rootFs (sLower fd.what) with
         | some e => isObjectAST e.1
         | none => false) &&
        (match pathShape fd.name with
         | none => false
         | some (ns, w) =>
           (readConds ns w).all (fun c => hasCover fds (sLower fd.what) c)))
    | _ => false

/-- A parsed path shape is never the empty non-wildcard path. -/
theorem pathShape_some_ne {parts : List Part} {ns : List String} {w : Bool}
    (h : pathShape parts = some (ns, w)) : ns ≠ [] ∨ w = true := by
  by_cases hn : ns = []
  · subst hn
    cases w with
    | true => exact Or.inr rfl
    | false =>
      have he := pathShape_eq parts [] false h
      rw [he] at h
      simp [partsOf, pathShape] at h
  · exact Or.inl hn

/-- An entry of a map after insertion is the inserted value or an old entry. -/
theorem getField_insertField_cases (fs : List (String × TypeAST × FieldMetadata))
    (k k' : String) (v e : TypeAST × FieldMetadata)
    (h : getField (insertField fs k v) k' = some e) :
    e = v ∨ getField fs k' = some e := by
  by_cases hk : k = k'
  · subst hk
    rw [getField_insertField_self] at h
    injection h with h'
    exact Or.inl h'.symm
  · rw [getField_insertField_ne fs k k' v hk] at h
    exact Or.inr h

/-- The partition loop is the non-field definitions applied in order, paired
with the deferred field definitions in source order. -/
theorem partitionApply_decompose : ∀ (stmts : List Statement) (ast : TypeAST),
    partitionApply stmts ast =
      (applyDefines (nonFieldDefines stmts) ast) >>= fun a =>
        .ok (fieldDefsOf stmts, a)
  | [], ast => by simp [partitionApply, applyDefines, nonFieldDefines, fieldDefsOf,
      List.foldlM]
  | .define (.field fd) :: rest, ast => by
    have ih := partitionApply_decompose rest ast
    simp only [partitionApply, nonFieldDefines, fieldDefsOf, ih]
    cases applyDefines (nonFieldDefines rest) ast <;> rfl
  | .define (.table td) :: rest, ast => by
    simp only [partitionApply, nonFieldDefines, fieldDefsOf, applyDefines,
      List.foldlM]
    cases h : apply_definition (.table td) ast with
    | error e => rfl
    | ok a => exact partitionApply_decompose rest a
  | .define .param :: rest, ast => by
    simp only [partitionApply, nonFieldDefines, fieldDefsOf, applyDefines,
      List.foldlM]
    cases h : apply_definition .param ast with
    | error e => rfl
    | ok a => exact partitionApply_decompose rest a
  | .define .otherDefine :: rest, ast => by
    simp only [partitionApply, nonFieldDefines, fieldDefsOf, applyDefines,
      List.foldlM]
    cases h : apply_definition .otherDefine ast with
    | error e => rfl
    | ok a => exact partitionApply_decompose rest a
  | .other :: rest, ast => by
    simp only [partitionApply, nonFieldDefines, fieldDefsOf]
    exact partitionApply_decompose rest ast

/-- After the partition loop, every table entry is an empty object. -/
theorem partitionApply_entries : ∀ (stmts : List Statement)
    (fs : List (String × TypeAST × FieldMetadata)),
    (∀ t e, getField fs t = some e → e.1 = .object []) →
    ∀ fds ast, partitionApply stmts (.object fs) = .ok (fds, ast) →
    ∃ fs', ast = .object fs' ∧ ∀ t e, getField fs' t = some e → e.1 = .object []
  | [], fs, hfs, fds, ast => by
    intro h
    simp only [partitionApply, Except.ok.injEq, Prod.mk.injEq] at h
    obtain ⟨-, rfl⟩ := h
    exact ⟨fs, rfl, hfs⟩
  | .define (.field fd) :: rest, fs, hfs, fds, ast => by
    intro h
    simp only [partitionApply] at h
    cases hrec : partitionApply rest (.object fs) with
    | error e =>
      rw [hrec, exceptBindError] at h
      exact absurd h (by simp)
    | ok pr =>
      rw [hrec, exceptBindOk] at h
      obtain ⟨p₁, p₂⟩ := pr
      simp only [Except.ok.injEq, Prod.mk.injEq] at h
      obtain ⟨-, rfl⟩ := h
      exact partitionApply_entries rest fs hfs p₁ p₂ (by rw [hrec])
  | .define (.table td) :: rest, fs, hfs, fds, ast => by
    intro h
    simp only [partitionApply, apply_definition, apply_table_definition,
      Except.bind] at h
    refine partitionApply_entries rest _ ?_ fds ast h
    intro t e hg
    rcases getField_insertField_cases fs td.name t _ e hg with rfl | hold
    · rfl
    · exact hfs t e hold
  | .define .param :: rest, fs, hfs, fds, ast => by
    intro h
    simp only [partitionApply, apply_definition, apply_param_definition,
      Except.bind] at h
    exact partitionApply_entries rest fs hfs fds ast h
  | .define .otherDefine :: rest, fs, hfs, fds, ast => by
    intro h
    simp only [partitionApply, apply_definition, Except.bind] at h
    exact partitionApply_entries rest fs hfs fds ast h
  | .other :: rest, fs, hfs, fds, ast => by
    intro h
    simp only [partitionApply] at h
    exact partitionApply_entries rest fs hfs fds ast h

/-- Path depth of a declaration, through its parsed shape. -/
theorem depthOf_shape {fd : DefineFieldStatement} {ns : List String} {w : Bool}
    (h : pathShape fd.name = some (ns, w)) :
    depthOf fd = ns.length + (if w then 1 else 0) := by
  rw [depthOf, pathShape_eq fd.name ns w h, partsOf_length]

/-- A pending declaration of minimal depth has all its read conditions
satisfied outright: any cover would sit at a strictly smaller depth. -/
theorem inv_min_ready {rootFs : List (String × TypeAST × FieldMetadata)}
    {L : List DefineFieldStatement} (hInv : InvA rootFs L)
    {d : Nat} (hDGE : ∀ fd ∈ L, d ≤ depthOf fd)
    {fd : DefineFieldStatement} (hfd : fd ∈ L) (hdep : depthOf fd = d) :
    ∃ ns w e, pathShape fd.name = some (ns, w) ∧
      getField rootFs (sLower fd.what) = some e ∧ isObjectAST e.1 = true ∧
      MatSuffix e.1 ns w := by
  obtain ⟨ns, w, hsh, e, hg, hobj, hconds⟩ := hInv fd hfd
  refine ⟨ns, w, e, hsh, hg, hobj, ?_⟩
  intro c hc
  rcases hconds c hc with h | h
  · exact h
  · exfalso
    simp only [hasCover, List.any_eq_true, Bool.and_eq_true, decide_eq_true_eq] at h
    obtain ⟨fd', hfd', ⟨-, hname⟩, -⟩ := h
    have hb := hDGE fd' hfd'
    have hlen : depthOf fd' = c.1.length := by
      rw [depthOf, hname, partsOf_length]
      simp
    have hclt : c.1.length < ns.length + (if w then 1 else 0) :=
      readConds_length ns w c hc
    have hfdd : depthOf fd = ns.length + (if w then 1 else 0) := depthOf_shape hsh
    omega

/-- `apply_field_definition` on an applicable declaration: success, and the
walk effect lifted to the root map. -/
theorem apply_field_definition_ok (fd : DefineFieldStatement)
    (rootFs : List (String × TypeAST × FieldMetadata))
    (ns : List String) (w : Bool) (e : TypeAST × FieldMetadata)
    (hsh : pathShape fd.name = some (ns, w))
    (hg : getField rootFs (sLower fd.what) = some e)
    (hms : MatSuffix e.1 ns w)
    (hobj : isObjectAST e.1 = true) :
    ∃ a', apply_field_definition fd (.object rootFs) =
        .ok (.object (insertField rootFs (sLower fd.what) (a', e.2)))
      ∧ (∀ p b, ¬ ns <+: p → (MatAt a' p b ↔ MatAt e.1 p b))
      ∧ (w = false → astAtPath a' ns = some (newFieldAst fd))
      ∧ (∀ el l, w = true → astAtPath e.1 ns = some (.array el l) →
          astAtPath a' ns = some (.array (fieldType fd) l))
      ∧ (∀ p u, astAtPath a' p = some u → astAtPath e.1 p ≠ none ∨ p = ns) := by
  have hname := pathShape_eq fd.name ns w hsh
  have hne := pathShape_some_ne hsh
  obtain ⟨a', heq, hpres, hwrF, hwrT, hpath⟩ :=
    applyFieldParts_effect fd ns w [sLower fd.what] e.1 e.2 hne (Or.inl hobj) hms
  refine ⟨a', ?_, hpres, hwrF, hwrT, hpath⟩
  simp only [apply_field_definition, hg, hname]
  rw [heq]
  rfl

/-- Two applicable declarations of equal depth and distinct (table, path)
keys commute at the root map. -/
theorem apply_field_definition_comm (z y : DefineFieldStatement)
    (rootFs : List (String × TypeAST × FieldMetadata))
    (nsz : List String) (wz : Bool) (ez : TypeAST × FieldMetadata)
    (nsy : List String) (wy : Bool) (ey : TypeAST × FieldMetadata)
    (hshz : pathShape z.name = some (nsz, wz))
    (hgz : getField rootFs (sLower z.what) = some ez)
    (hmsz : MatSuffix ez.1 nsz wz)
    (hobjz : isObjectAST ez.1 = true)
    (hshy : pathShape y.name = some (nsy, wy))
    (hgy : getField rootFs (sLower y.what) = some ey)
    (hmsy : MatSuffix ey.1 nsy wy)
    (hobjy : isObjectAST ey.1 = true)
    (hkey : fdKey z ≠ fdKey y)
    (hdep : depthOf z = depthOf y) :
    (apply_field_definition z (.object rootFs) >>= apply_field_definition y) =
    (apply_field_definition y (.object rootFs) >>= apply_field_definition z) := by
  have hnamez := pathShape_eq z.name nsz wz hshz
  have hnamey := pathShape_eq y.name nsy wy hshy
  have hFz : ∀ (fs : List (String × TypeAST × FieldMetadata))
      (ee : TypeAST × FieldMetadata),
      getField fs (sLower z.what) = some ee →
      apply_field_definition z (.object fs) =
        (match applyFieldParts z [sLower z.what] (partsOf nsz wz) ee with
         | .ok u => .ok (.object (insertField fs (sLower z.what) u))
         | .error er => .error er) := by
    intro fs ee hgf
    simp only [apply_field_definition, hgf, hnamez]
    cases applyFieldParts z [sLower z.what] (partsOf nsz wz) ee <;> rfl
  have hFy : ∀ (fs : List (String × TypeAST × FieldMetadata))
      (ee : TypeAST × FieldMetadata),
      getField fs (sLower y.what) = some ee →
      apply_field_definition y (.object fs) =
        (match applyFieldParts y [sLower y.what] (partsOf nsy wy) ee with
         | .ok u => .ok (.object (insertField fs (sLower y.what) u))
         | .error er => .error er) := by
    intro fs ee hgf
    simp only [apply_field_definition, hgf, hnamey]
    cases applyFieldParts y [sLower y.what] (partsOf nsy wy) ee <;> rfl
  by_cases ht : sLower z.what = sLower y.what
  · -- same table: the entry-level commutation does the work
    rw [← ht] at hgy hFy
    have hee : ez = ey := by
      have h := hgz.symm.trans hgy
      injection h
    subst hee
    have hpair : (nsz, wz) ≠ (nsy, wy) := by
      intro hp
      apply hkey
      rw [Prod.mk.injEq] at hp
      unfold fdKey
      rw [ht, hnamez, hnamey, hp.1, hp.2]
    have hdep' : nsz.length + (if wz then 1 else 0) =
        nsy.length + (if wy then 1 else 0) := by
      have h1 := depthOf_shape hshz
      have h2 := depthOf_shape hshy
      omega
    obtain ⟨ea, em⟩ := ez
    cases ea with
    | object eobj =>
      have comm := applyFieldParts_comm z y nsz wz nsy wy [sLower z.what] eobj em
        hmsz hmsy hpair hdep'
      obtain ⟨az, hokz, -, -, -, -⟩ := applyFieldParts_effect z nsz wz [sLower z.what]
        (.object eobj) em (pathShape_some_ne hshz) (Or.inl rfl) hmsz
      obtain ⟨ay, hoky, -, -, -, -⟩ := applyFieldParts_effect y nsy wy [sLower z.what]
        (.object eobj) em (pathShape_some_ne hshy) (Or.inl rfl) hmsy
      rw [hokz, hoky] at comm
      simp only [exceptBindOk] at comm
      rw [hFz rootFs (.object eobj, em) hgz, hFy rootFs (.object eobj, em) hgy]
      simp only [hokz, hoky]
      simp only [exceptBindOk]
      rw [hFy (insertField rootFs (sLower z.what) (az, em)) (az, em)
            (getField_insertField_self rootFs (sLower z.what) (az, em)),
          hFz (insertField rootFs (sLower z.what) (ay, em)) (ay, em)
            (getField_insertField_self rootFs (sLower z.what) (ay, em))]
      rw [comm]
      cases hT : applyFieldParts z [sLower z.what] (partsOf nsz wz) (ay, em) with
      | error er => rfl
      | ok uu => simp [insertField_insertField_same]
    | scalar s => simp [isObjectAST] at hobjz
    | array el l => simp [isObjectAST] at hobjz
    | option' i => simp [isObjectAST] at hobjz
    | record t => simp [isObjectAST] at hobjz
    | union vs => simp [isObjectAST] at hobjz
  · -- different tables: the two updates touch independent root entries
    obtain ⟨za, zm⟩ := ez
    obtain ⟨ya, ym⟩ := ey
    cases za with
    | object zobj =>
      cases ya with
      | object yobj =>
        obtain ⟨az, hokz, -, -, -, -⟩ := applyFieldParts_effect z nsz wz
          [sLower z.what] (.object zobj) zm (pathShape_some_ne hshz)
          (Or.inl rfl) hmsz
        obtain ⟨ay, hoky, -, -, -, -⟩ := applyFieldParts_effect y nsy wy
          [sLower y.what] (.object yobj) ym (pathShape_some_ne hshy)
          (Or.inl rfl) hmsy
        rw [hFz rootFs (.object zobj, zm) hgz, hFy rootFs (.object yobj, ym) hgy]
        simp only [hokz, hoky]
        simp only [exceptBindOk]
        rw [hFy (insertField rootFs (sLower z.what) (az, zm)) (.object yobj, ym)
              ((getField_insertField_ne rootFs (sLower z.what) (sLower y.what)
                (az, zm) ht).trans hgy),
            hFz (insertField rootFs (sLower y.what) (ay, ym)) (.object zobj, zm)
              ((getField_insertField_ne rootFs (sLower y.what) (sLower z.what)
                (ay, ym) (Ne.symm ht)).trans hgz)]
        simp only [hokz, hoky]
        rw [insertField_comm rootFs (sLower z.what) (sLower y.what)
          (az, zm) (ay, ym) ht]
      | scalar s => simp [isObjectAST] at hobjy
      | array el l => simp [isObjectAST] at hobjy
      | option' i => simp [isObjectAST] at hobjy
      | record t => simp [isObjectAST] at hobjy
      | union vs => simp [isObjectAST] at hobjy
    | scalar s => simp [isObjectAST] at hobjz
    | array el l => simp [isObjectAST] at hobjz
    | option' i => simp [isObjectAST] at hobjz
    | record t => simp [isObjectAST] at hobjz
    | union vs => simp [isObjectAST] at hobjz

theorem hasCover_of_mem {L : List DefineFieldStatement} {t : String}
    {c : List String × Bool} {fd' : DefineFieldStatement}
    (h' : fd' ∈ L) (h1 : sLower fd'.what = t)
    (h2 : fd'.name = partsOf c.1 false) (h3 : coverOK c.2 fd' = true) :
    hasCover L t c = true := by
  simp only [hasCover, List.any_eq_true, Bool.and_eq_true, decide_eq_true_eq]
  exact ⟨fd', h', ⟨h1, h2⟩, h3⟩

theorem hasCover_elim {L : List DefineFieldStatement} {t : String}
    {c : List String × Bool} (h : hasCover L t c = true) :
    ∃ fd' ∈ L, sLower fd'.what = t ∧ fd'.name = partsOf c.1 false ∧
      coverOK c.2 fd' = true := by
  simp only [hasCover, List.any_eq_true, Bool.and_eq_true, decide_eq_true_eq] at h
  obtain ⟨fd', hfd', ⟨h1, h2⟩, h3⟩ := h
  exact ⟨fd', hfd', h1, h2, h3⟩

/-- The wildcard read condition at the full path is among the conditions. -/
theorem readConds_self_mem : ∀ (ns : List String), (ns, true) ∈ readConds ns true
  | [] => by simp [readConds]
  | [n] => by simp [readConds]
  | n :: m :: rest => by
    have ih := readConds_self_mem (m :: rest)
    simp only [readConds, List.mem_cons, List.mem_map]
    exact Or.inr ⟨(m :: rest, true), ih, rfl⟩

/-- Applying a minimal-depth pending declaration succeeds and preserves the
fold invariants for the remaining declarations. -/
theorem inv_step (y : DefineFieldStatement) (M : List DefineFieldStatement)
    (rootFs : List (String × TypeAST × FieldMetadata)) (d : Nat)
    (hIA : InvA rootFs (y :: M)) (hIB : InvB rootFs (y :: M))
    (hdy : depthOf y = d)
    (hDGE : ∀ fd ∈ y :: M, d ≤ depthOf fd)
    (hSB : StateBound d rootFs)
    (hnd : List.Nodup ((y :: M).map fdKey)) :
    ∃ rootFs', apply_field_definition y (.object rootFs) = .ok (.object rootFs')
      ∧ InvA rootFs' M ∧ InvB rootFs' M ∧ StateBound d rootFs' := by
  obtain ⟨nsy, wy, ey, hshy, hgy, hobjy, hmsy⟩ :=
    inv_min_ready hIA hDGE (List.mem_cons_self y M) hdy
  obtain ⟨a', happly, hpres, hwrF, hwrT, hpath⟩ :=
    apply_field_definition_ok y rootFs nsy wy ey hshy hgy hmsy hobjy
  have hkeyy : fdKey y ∉ M.map fdKey := (List.nodup_cons.mp hnd).1
  have hnsy : nsy ≠ [] := by
    intro h
    subst h
    rcases pathShape_some_ne hshy with h' | h'
    · exact h' rfl
    · subst h'
      have hm := hmsy ([], true) (by simp [readConds])
      rw [MatAt_nil] at hm
      simp only [if_pos rfl] at hm
      cases hc : ey.1 <;> rw [hc] at hm hobjy <;>
        simp [isObjectAST, isArrayAST] at hm hobjy
  have ha'obj : isObjectAST a' = true := by
    have h := hpres [] false (by rw [List.prefix_nil]; exact hnsy)
    have h2 : MatAt a' [] false :=
      h.mpr ((MatAt_nil ey.1 false).mpr (by simpa using hobjy))
    simpa using (MatAt_nil a' false).mp h2
  have hdepy := depthOf_shape hshy
  have hnamey := pathShape_eq y.name nsy wy hshy
  refine ⟨insertField rootFs (sLower y.what) (a', ey.2), happly, ?_, ?_, ?_⟩
  · -- InvA preserved
    intro fd hfd
    obtain ⟨ns, w, hsh, e, hge, hobje, hconds⟩ := hIA fd (List.mem_cons_of_mem y hfd)
    by_cases htt : sLower fd.what = sLower y.what
    · -- same table
      have he : e = ey := by
        rw [htt] at hge
        have h := hge.symm.trans hgy
        injection h
      subst he
      refine ⟨ns, w, hsh, (a', e.2), ?_, ha'obj, ?_⟩
      · rw [htt]
        exact getField_insertField_self rootFs (sLower y.what) (a', e.2)
      · intro c hc
        rcases hconds c hc with hA | hB
        · -- the condition held; check whether the write perturbs it
          by_cases hpref : nsy <+: c.1
          · by_cases hceq : c.1 = nsy
            · -- the write lands exactly at the condition's path
              cases hwy : wy with
              | false =>
                -- pending terminal write: the path did not exist, contradiction
                exfalso
                obtain ⟨u, hu, -⟩ := hA
                have hnone := hIB y (List.mem_cons_self y M) nsy
                  (by rw [← hwy]; exact hshy) e hgy
                rw [hceq] at hu
                rw [hnone] at hu
                exact Option.noConfusion hu
              | true =>
                -- wildcard write keeps the array at the path
                have hyc : MatAt e.1 nsy true := hmsy (nsy, true)
                  (by rw [hwy] at hshy ⊢; exact readConds_self_mem nsy)
                cases hc2 : c.2 with
                | false =>
                  exfalso
                  rw [hceq, hc2] at hA
                  exact MatAt_not_both hyc hA
                | true =>
                  obtain ⟨u, hu, hua⟩ := hyc
                  refine Or.inl ?_
                  cases u with
                  | array el l =>
                    have := hwrT el l hwy hu
                    rw [hceq]
                    exact ⟨.array (fieldType y) l, this, by simp [isArrayAST]⟩
                  | scalar s => simp [isArrayAST] at hua
                  | object fs => simp [isArrayAST] at hua
                  | option' i => simp [isArrayAST] at hua
                  | record t => simp [isArrayAST] at hua
                  | union vs => simp [isArrayAST] at hua
            · -- the condition's path strictly extends the write path
              exfalso
              obtain ⟨q, hq⟩ := hpref
              have hqne : q ≠ [] := by
                intro h
                subst h
                exact hceq (by rw [← hq, List.append_nil])
              obtain ⟨u, hu, -⟩ := hA
              have hlen : c.1.length ≤ d := hSB (sLower y.what) e hgy c.1 u hu
              have hlen2 : c.1.length = nsy.length + q.length := by
                rw [← hq, List.length_append]
              cases hwy : wy with
              | false =>
                rw [hwy] at hdepy
                simp at hdepy
                have : 1 ≤ q.length := Nat.one_le_iff_ne_zero.mpr
                  (fun h => hqne (List.length_eq_zero.mp h))
                omega
              | true =>
                have hyc : MatAt e.1 nsy true := hmsy (nsy, true)
                  (by rw [hwy] at hshy ⊢; exact readConds_self_mem nsy)
                exact MatAt_array_no_extension hyc hqne (by rw [hq]; exact hu)
          · -- untouched path: the preservation clause transfers it
            exact Or.inl ((hpres c.1 c.2 hpref).mpr hA)
        · -- covered: by a remaining declaration, or by the write itself
          obtain ⟨fd', hfd', h1, h2, h3⟩ := hasCover_elim hB
          rcases List.mem_cons.mp hfd' with rfl | hfd'M
          · -- the cover is the declaration just applied
            have hc1ne : c.1 ≠ [] := by
              intro h
              rw [h] at h2
              simp only [partsOf, List.map_nil, if_neg Bool.false_ne_true,
                List.nil_append] at h2
              rw [h2] at hshy
              simp [pathShape] at hshy
            have hinj := partsOf_inj (Or.inl hc1ne) (h2.symm.trans hnamey)
            obtain ⟨hns, hw⟩ := hinj
            refine Or.inl ?_
            have hwf := hwrF hw.symm
            refine ⟨newFieldAst fd', ?_, ?_⟩
            · rw [hns]
              exact hwf
            · unfold coverOK at h3
              exact h3
          · exact Or.inr (hasCover_of_mem hfd'M h1 h2 h3)
    · -- different table: entry untouched
      refine ⟨ns, w, hsh, e, ?_, hobje, ?_⟩
      · rw [getField_insertField_ne rootFs (sLower y.what) (sLower fd.what) _
          (fun h => htt h.symm)]
        exact hge
      · intro c hc
        rcases hconds c hc with hA | hB
        · exact Or.inl hA
        · obtain ⟨fd', hfd', h1, h2, h3⟩ := hasCover_elim hB
          rcases List.mem_cons.mp hfd' with rfl | hfd'M
          · exact absurd h1.symm htt
          · exact Or.inr (hasCover_of_mem hfd'M h1 h2 h3)
  · -- InvB preserved
    intro fd hfd ns hshfd e' hge'
    by_cases htt : sLower fd.what = sLower y.what
    · have he' : e' = (a', ey.2) := by
        rw [htt] at hge'
        rw [getField_insertField_self] at hge'
        injection hge' with h
        exact h.symm
      subst he'
      cases hsome : astAtPath a' ns with
      | none => rfl
      | some u =>
        exfalso
        rcases hpath ns u hsome with hold | hns
        · have hnone := hIB fd (List.mem_cons_of_mem y hfd) ns hshfd ey
            (by rw [htt]; exact hgy)
          exact hold hnone
        · subst hns
          cases hwy : wy with
          | false =>
            apply hkeyy
            have : fdKey fd = fdKey y := by
              unfold fdKey
              rw [htt, hnamey, pathShape_eq fd.name ns false hshfd, hwy]
            rw [← this]
            exact List.mem_map_of_mem fdKey hfd
          | true =>
            have h1 : depthOf fd = ns.length := by
              rw [depthOf_shape hshfd]
              simp
            have h2 := hDGE fd (List.mem_cons_of_mem y hfd)
            rw [hwy] at hdepy
            simp at hdepy
            omega
    · rw [getField_insertField_ne rootFs (sLower y.what) (sLower fd.what) _
        (fun h => htt h.symm)] at hge'
      exact hIB fd (List.mem_cons_of_mem y hfd) ns hshfd e' hge'
  · -- StateBound preserved
    intro t e' hge' p u hpu
    rcases getField_insertField_cases rootFs (sLower y.what) t _ e' hge' with rfl | hold
    · rcases hpath p u hpu with h | h
      · obtain ⟨u', hu'⟩ := Option.ne_none_iff_exists'.mp h
        exact hSB (sLower y.what) ey hgy p u' hu'
      · subst h
        cases hwy : wy with
        | false => rw [hwy] at hdepy; simp at hdepy; omega
        | true => rw [hwy] at hdepy; simp at hdepy; omega
    · exact hSB t e' hold p u hpu

theorem foldApply_cons (ast : TypeAST) (fd : DefineFieldStatement)
    (L : List DefineFieldStatement) :
    foldApply ast (fd :: L) =
      apply_field_definition fd ast >>= fun a => foldApply a L := rfl

theorem InvA_of_perm {rootFs : List (String × TypeAST × FieldMetadata)}
    {L L' : List DefineFieldStatement} (hp : L.Perm L') (h : InvA rootFs L) :
    InvA rootFs L' := by
  intro fd hfd
  obtain ⟨ns, w, hsh, e, hg, ho, hc⟩ := h fd (hp.mem_iff.mpr hfd)
  refine ⟨ns, w, hsh, e, hg, ho, fun c hcc => ?_⟩
  rcases hc c hcc with hA | hB
  · exact Or.inl hA
  · obtain ⟨fd', hfd', h1, h2, h3⟩ := hasCover_elim hB
    exact Or.inr (hasCover_of_mem (hp.mem_iff.mp hfd') h1 h2 h3)

theorem InvB_of_perm {rootFs : List (String × TypeAST × FieldMetadata)}
    {L L' : List DefineFieldStatement} (hp : L.Perm L') (h : InvB rootFs L) :
    InvB rootFs L' :=
  fun fd hfd => h fd (hp.mem_iff.mpr hfd)

/-- Within a group of equal-depth declarations, a declaration bubbles to the
front of the fold without changing the result. -/
theorem fold_bubble (y : DefineFieldStatement) (v : List DefineFieldStatement)
    (d : Nat) (hdy : depthOf y = d) :
    ∀ (u : List DefineFieldStatement)
      (rootFs : List (String × TypeAST × FieldMetadata)),
    (∀ z ∈ u, depthOf z = d) →
    (∀ fd ∈ u ++ y :: v, d ≤ depthOf fd) →
    InvA rootFs (u ++ y :: v) → InvB rootFs (u ++ y :: v) →
    StateBound d rootFs →
    List.Nodup ((u ++ y :: v).map fdKey) →
    foldApply (.object rootFs) (u ++ y :: v) =
      foldApply (.object rootFs) (y :: (u ++ v))
  | [], rootFs => by
    intro _ _ _ _ _ _
    rfl
  | z :: u', rootFs => by
    intro hu hDGE hIA hIB hSB hnd
    have hdz : depthOf z = d := hu z (List.mem_cons_self z u')
    obtain ⟨rootFs', happz, hIA', hIB', hSB'⟩ :=
      inv_step z (u' ++ y :: v) rootFs d hIA hIB hdz hDGE hSB hnd
    have ih := fold_bubble y v d hdy u' rootFs'
      (fun w hw => hu w (List.mem_cons_of_mem z hw))
      (fun fd hfd => hDGE fd (List.mem_cons_of_mem z hfd))
      hIA' hIB' hSB' (List.nodup_cons.mp hnd).2
    -- commute z and y at the current state
    obtain ⟨nsz, wz, ez, hshz, hgz, hobjz, hmsz⟩ :=
      inv_min_ready hIA hDGE (List.mem_cons_self z (u' ++ y :: v)) hdz
    have hy_mem : y ∈ z :: (u' ++ y :: v) :=
      List.mem_cons_of_mem z (List.mem_append_right u' (List.mem_cons_self y v))
    obtain ⟨nsy, wy, ey, hshy, hgy, hobjy, hmsy⟩ :=
      inv_min_ready hIA hDGE hy_mem hdy
    have hkeyzy : fdKey z ≠ fdKey y := by
      intro h
      have h1 : fdKey z ∉ (u' ++ y :: v).map fdKey := (List.nodup_cons.mp hnd).1
      apply h1
      rw [h]
      exact List.mem_map_of_mem fdKey
        (List.mem_append_right u' (List.mem_cons_self y v))
    have comm := apply_field_definition_comm z y rootFs nsz wz ez nsy wy ey
      hshz hgz hmsz hobjz hshy hgy hmsy hobjy hkeyzy (hdz.trans hdy.symm)
    have lhs₁ : foldApply (.object rootFs) ((z :: u') ++ y :: v) =
        foldApply (.object rootFs') (u' ++ y :: v) := by
      rw [List.cons_append, foldApply_cons, happz, exceptBindOk]
    rw [lhs₁, ih, foldApply_cons]
    have hy' : apply_field_definition y (.object rootFs') =
        (apply_field_definition y (.object rootFs) >>= apply_field_definition z) := by
      rw [← comm, happz, exceptBindOk]
    rw [hy']
    rw [foldApply_cons]
    cases hYa : apply_field_definition y (.object rootFs) with
    | error e => rfl
    | ok a =>
      simp only [exceptBindOk]
      rw [List.cons_append, foldApply_cons]

/-- The depth-sorted field-definition fold is invariant under permutation of
the declarations, given the fold invariants. -/
theorem foldApply_perm : ∀ (L₁ L₂ : List DefineFieldStatement)
    (rootFs : List (String × TypeAST × FieldMetadata)) (d : Nat),
    L₁.Perm L₂ →
    List.Sorted fieldDepthLE L₁ → List.Sorted fieldDepthLE L₂ →
    List.Nodup (L₁.map fdKey) →
    (∀ fd ∈ L₁, d ≤ depthOf fd) →
    StateBound d rootFs →
    InvA rootFs L₁ → InvB rootFs L₁ →
    foldApply (.object rootFs) L₁ = foldApply (.object rootFs) L₂
  | [], L₂, rootFs, d => by
    intro hperm _ _ _ _ _ _ _
    rw [List.Perm.eq_nil hperm.symm]
  | y :: T₁, L₂, rootFs, d => by
    intro hperm hsort₁ hsort₂ hnd hDGE hSB hIA hIB
    have hyL₂ : y ∈ L₂ := hperm.mem_iff.mp (List.mem_cons_self y T₁)
    obtain ⟨u, v, rfl⟩ := List.append_of_mem hyL₂
    have hDGE' : ∀ fd ∈ y :: T₁, depthOf y ≤ depthOf fd := by
      intro fd hfd
      rcases List.mem_cons.mp hfd with rfl | hm
      · exact Nat.le_refl _
      · exact (List.sorted_cons.mp hsort₁).1 fd hm
    have hd_le : d ≤ depthOf y := hDGE y (List.mem_cons_self y T₁)
    have hSB' : StateBound (depthOf y) rootFs :=
      fun t e hg p u' hp => Nat.le_trans (hSB t e hg p u' hp) hd_le
    have huv_all : ∀ z ∈ u, depthOf z = depthOf y := by
      intro z hz
      have h₁ : fieldDepthLE z y :=
        (List.pairwise_append.mp hsort₂).2.2 z hz y (List.mem_cons_self y v)
      have h₂ : depthOf y ≤ depthOf z :=
        hDGE' z (hperm.mem_iff.mpr (List.mem_append_left (y :: v) hz))
      exact Nat.le_antisymm h₁ h₂
    have hIAuv : InvA rootFs (u ++ y :: v) := InvA_of_perm hperm hIA
    have hIBuv : InvB rootFs (u ++ y :: v) := InvB_of_perm hperm hIB
    have hnduv : List.Nodup ((u ++ y :: v).map fdKey) :=
      ((hperm.map fdKey).nodup_iff).mp hnd
    have hDGEuv : ∀ fd ∈ u ++ y :: v, depthOf y ≤ depthOf fd :=
      fun fd hfd => hDGE' fd (hperm.mem_iff.mpr hfd)
    have hbubble := fold_bubble y v (depthOf y) rfl u rootFs huv_all hDGEuv
      hIAuv hIBuv hSB' hnduv
    obtain ⟨rootFs', happy, hIA', hIB', hSB''⟩ :=
      inv_step y T₁ rootFs (depthOf y) hIA hIB rfl hDGE' hSB' hnd
    have hpermT : T₁.Perm (u ++ v) := by
      have h1 : (u ++ y :: v).Perm (y :: (u ++ v)) := List.perm_middle
      exact (hperm.trans h1).cons_inv
    have hsortT : List.Sorted fieldDepthLE T₁ := (List.sorted_cons.mp hsort₁).2
    have hsortuv : List.Sorted fieldDepthLE (u ++ v) :=
      List.Pairwise.sublist (List.Sublist.append_left (List.sublist_cons_self y v) u)
        hsort₂
    have ih := foldApply_perm T₁ (u ++ v) rootFs' (depthOf y) hpermT hsortT
      hsortuv (List.nodup_cons.mp hnd).2
      (fun fd hfd => hDGE' fd (List.mem_cons_of_mem y hfd))
      hSB'' hIA' hIB'
    rw [hbubble, foldApply_cons, foldApply_cons, happy, exceptBindOk,
      exceptBindOk, ih]

instance : IsTotal DefineFieldStatement fieldDepthLE :=
  ⟨fun a b => Nat.le_total a.name.length b.name.length⟩

instance : IsTrans DefineFieldStatement fieldDepthLE :=
  ⟨fun _ _ _ => Nat.le_trans⟩

theorem astAtPath_empty_object (ns : List String) (hns : ns ≠ []) :
    astAtPath (.object []) ns = none := by
  cases ns with
  | nil => exact absurd rfl hns
  | cons n rest => simp [astAtPath, getField]

/-- A well-formed schema's partition satisfies all the fold invariants. -/
theorem wellFormedSchema_spec {stmts : List Statement}
    (h : wellFormedSchema stmts = true) :
    ∃ fds rootFs, partitionApply stmts (.object []) = .ok (fds, .object rootFs) ∧
      List.Nodup (fds.map fdKey) ∧ InvA rootFs fds ∧ InvB rootFs fds ∧
      StateBound 0 rootFs := by
  unfold wellFormedSchema at h
  cases hpart : partitionApply stmts (.object []) with
  | error e => rw [hpart] at h; simp at h
  | ok pr =>
    obtain ⟨fds, ast⟩ := pr
    rw [hpart] at h
    cases ast with
    | object rootFs =>
      simp only [Bool.and_eq_true, decide_eq_true_eq, List.all_eq_true] at h
      obtain ⟨hnd, hall⟩ := h
      obtain ⟨fs', hfs'eq, hentries⟩ := partitionApply_entries stmts []
        (by intro t e hg; simp [getField] at hg) fds (.object rootFs) hpart
      have hroot : ∀ t e, getField rootFs t = some e → e.1 = .object [] := by
        injection hfs'eq with h'
        subst h'
        exact hentries
      refine ⟨fds, rootFs, rfl, hnd, ?_, ?_, ?_⟩
      · -- InvA holds initially: every condition is covered
        intro fd hfd
        obtain ⟨hf1, hf2⟩ := hall fd hfd
        cases hge : getField rootFs (sLower fd.what) with
        | none => rw [hge] at hf1; simp at hf1
        | some e =>
          rw [hge] at hf1
          cases hsh : pathShape fd.name with
          | none => rw [hsh] at hf2; simp at hf2
          | some pr2 =>
            obtain ⟨ns, w⟩ := pr2
            rw [hsh] at hf2
            rw [List.all_eq_true] at hf2
            exact ⟨ns, w, rfl, e, rfl, hf1, fun c hc => Or.inr (hf2 c hc)⟩
      · -- InvB holds initially: the entries are empty objects
        intro fd hfd ns hsh e hge
        rw [hroot _ _ hge]
        refine astAtPath_empty_object ns ?_
        rcases pathShape_some_ne hsh with h' | h'
        · exact h'
        · simp at h'
      · -- StateBound 0 holds initially
        intro t e hge p u hp
        rw [hroot t e hge] at hp
        cases p with
        | nil => exact Nat.le_refl 0
        | cons n rest =>
          rw [astAtPath_empty_object (n :: rest) (by simp)] at hp
          exact absurd hp (by simp)
    | scalar s => simp at h
    | array el l => simp at h
    | option' i => simp at h
    | record t => simp at h
    | union vs => simp at h

/-- `analyze_schema` is its partition followed by the sorted field fold. -/
theorem analyze_schema_eq_fold {stmts : List Statement}
    {fds : List DefineFieldStatement}
    {rootFs : List (String × TypeAST × FieldMetadata)}
    (hpart : partitionApply stmts (.object []) = .ok (fds, .object rootFs)) :
    analyze_schema stmts =
      foldApply (.object rootFs) (List.insertionSort fieldDepthLE fds) := by
  unfold analyze_schema
  rw [hpart]
  rfl

theorem partitionApply_ok_parts {stmts : List Statement}
    {fds : List DefineFieldStatement} {ast : TypeAST}
    (h : partitionApply stmts (.object []) = .ok (fds, ast)) :
    fds = fieldDefsOf stmts ∧
      applyDefines (nonFieldDefines stmts) (.object []) = .ok ast := by
  have hd := partitionApply_decompose stmts (.object [])
  rw [h] at hd
  cases happ : applyDefines (nonFieldDefines stmts) (.object []) with
  | error e => rw [happ, exceptBindError] at hd; exact absurd hd (by simp)
  | ok a =>
    rw [happ, exceptBindOk] at hd
    injection hd with h2
    rw [Prod.mk.injEq] at h2
    refine ⟨h2.1, ?_⟩
    rw [h2.2]

/-- C5 (amended): with the claim's well-formedness strengthened to what the
depth sort actually guarantees — pairwise-distinct `(table, path)` declaration
keys, declared tables, and every read prerequisite declared with the demanded
shape (an object-typed declaration for every proper path prefix, an array-typed
declaration under every wildcard), as checked by `wellFormedSchema` — compiling
any permutation of the field declarations (with the non-field statements kept
equal) yields an identical schema, because field declarations are deferred and
stably sorted by path depth ascending before being applied. -/
theorem c5_amended_ordering_invariance (stmts₁ stmts₂ : List Statement)
    (hwf : wellFormedSchema stmts₁ = true)
    (hnf : nonFieldDefines stmts₁ = nonFieldDefines stmts₂)
    (hperm : (fieldDefsOf stmts₁).Perm (fieldDefsOf stmts₂)) :
    analyze_schema stmts₁ = analyze_schema stmts₂ := by
  obtain ⟨fds, rootFs, hpart, hnd, hIA, hIB, hSB⟩ := wellFormedSchema_spec hwf
  obtain ⟨hfds₁, happ₁⟩ := partitionApply_ok_parts hpart
  have hpart₂ : partitionApply stmts₂ (.object []) =
      .ok (fieldDefsOf stmts₂, .object rootFs) := by
    have hd₂ := partitionApply_decompose stmts₂ (.object [])
    rw [← hnf, happ₁, exceptBindOk] at hd₂
    exact hd₂
  rw [analyze_schema_eq_fold hpart, analyze_schema_eq_fold hpart₂]
  subst hfds₁
  have hsp₁ := List.perm_insertionSort fieldDepthLE (fieldDefsOf stmts₁)
  have hsp₂ := List.perm_insertionSort fieldDepthLE (fieldDefsOf stmts₂)
  exact foldApply_perm _ _ rootFs 0 (hsp₁.trans (hperm.trans hsp₂.symm))
    (List.sorted_insertionSort fieldDepthLE (fieldDefsOf stmts₁))
    (List.sorted_insertionSort fieldDepthLE (fieldDefsOf stmts₂))
    (((hsp₁.map fdKey).nodup_iff).mpr hnd)
    (fun fd _ => Nat.zero_le _) hSB
    (InvA_of_perm hsp₁.symm hIA) (InvB_of_perm hsp₁.symm hIB)

/-- The C5 counterexample schemas: two field declarations on the same
`(table, path)` key `(t, x)` with different kinds, in the two orders.  Both
sequences declare every parent before its children (there are no nested
paths), so the original claim's precondition holds. -/
def c5FdStr : DefineFieldStatement := ⟨"t", [.field "x"], some .string, .dflt⟩

def c5FdInt : DefineFieldStatement := ⟨"t", [.field "x"], some .int, .dflt⟩

def c5StmtsA : List Statement :=
  [.define (.table ⟨"t", .dflt⟩), .define (.field c5FdStr), .define (.field c5FdInt)]

def c5StmtsB : List Statement :=
  [.define (.table ⟨"t", .dflt⟩), .define (.field c5FdInt), .define (.field c5FdStr)]

/-- Observer: did `t.x` compile to `Scalar(String)`? -/
def c5Observe (r : Except SchemaParseError TypeAST) : Bool :=
  match r with
  | .ok t =>
    (match astAtPath t ["t", "x"] with
     | some (.scalar .string) => true
     | _ => false)
  | .error _ => false

/-- C5 counterexample: the two sequences differ only by a permutation of
their field declarations (the non-field statements are equal), each parent is
declared before its children, yet the compiled schemas differ — the depth
sort is stable, so within one depth the last declaration of a duplicated
`(table, path)` key wins, and a permutation can change which one is last. -/
theorem c5_counterexample :
    nonFieldDefines c5StmtsA = nonFieldDefines c5StmtsB ∧
    (fieldDefsOf c5StmtsA).Perm (fieldDefsOf c5StmtsB) ∧
    analyze_schema c5StmtsA ≠ analyze_schema c5StmtsB := by
  refine ⟨rfl, List.Perm.swap c5FdInt c5FdStr [], fun h => ?_⟩
  exact absurd (congrArg c5Observe h) (by decide)

/-- The C5 witness schemas: a nested object field declared in both orders. -/
def c5WFdObj : DefineFieldStatement := ⟨"t", [.field "a"], some .object, .dflt⟩

def c5WFdStr : DefineFieldStatement :=
  ⟨"t", [.field "a", .field "b"], some .string, .dflt⟩

def c5WStmtsA : List Statement :=
  [.define (.table ⟨"t", .dflt⟩), .define (.field c5WFdObj),
   .define (.field c5WFdStr)]

def c5WStmtsB : List Statement :=
  [.define (.table ⟨"t", .dflt⟩), .define (.field c5WFdStr),
   .define (.field c5WFdObj)]

theorem c5_witness :
    wellFormedSchema c5WStmtsA = true ∧
    nonFieldDefines c5WStmtsA = nonFieldDefines c5WStmtsB ∧
    (fieldDefsOf c5WStmtsA).Perm (fieldDefsOf c5WStmtsB) ∧
    analyze_schema c5WStmtsA = analyze_schema c5WStmtsB := by
  refine ⟨by decide, rfl, List.Perm.swap c5WFdStr c5WFdObj [], ?_⟩
  exact c5_amended_ordering_invariance c5WStmtsA c5WStmtsB (by decide) rfl
    (List.Perm.swap c5WFdStr c5WFdObj [])

end Surrealix
